import Mathlib

/-!
Verification of the PinStats extraction / caching / retry / batching /
channel pipeline.

The development shallowly embeds the TypeScript sources:
* `src/src/injector.ts` — the record extractor (`extractPinData`,
  `extractAllPins`, `calculateAge`, `sumReactions`, `detectPinType`) and the
  batch fetch engine (`fetchPinStats`, `fetchBatchParallel`);
* `src/unnamed/part_006` — the stats cache (`set`, `get`, `has`, `update`,
  `evictIfNeeded`, `size`);
* `src/src/utils/retry.ts` — `isRetryableError`, `retryWithBackoff`;
* `src/unnamed/part_005` — the content-script side of the cross-context
  channel (`requestStatsFetch`, the injector-ready handler, the debounce
  timer flush).

Modelling conventions:
* JSON values are the inductive `Json`; machine numbers are unbounded `Int`
  (the JS sources only add, subtract and compare; no overflow is observable).
* JavaScript truthiness and string coercion are modelled by `jsTruthy` and
  `jsToString` for every `Json` constructor.
* Field reads that the source performs through a TypeScript cast
  (for example `record.repin_count as number` followed by the nullish
  operator) are modelled at the declared type: a field that is present with
  a value of another runtime type is treated like an absent field.  The id
  guard, whose regular-expression test explicitly coerces its argument, is
  modelled with the full string coercion.
* Ambient time (`Date.now()`, `new Date()`) is passed explicitly: `Clock`
  packages the observations the code makes of the current date, and the
  cache / batching functions take `now : Int` (epoch milliseconds).
* `new Date(dateStr)` is modelled by `parseDate`, which accepts the
  ISO `YYYY-MM-DD` subset of the JS date grammar; every other non-empty
  string is an invalid date.  JS `new Date` never throws on strings: an
  invalid date yields `NaN` components, and every `NaN` comparison is
  false — `calculateAge` mirrors that with its `none` branch.
-/

namespace PinStats

/-- A JSON value (the shape of data handed to the interceptor pipeline). -/
inductive Json where
  | null
  | bool (b : Bool)
  | num (n : Int)
  | str (s : String)
  | arr (elems : List Json)
  | obj (fields : List (String × Json))

namespace Json

mutual
/-- Decidable structural equality for `Json`. -/
def beq : Json → Json → Bool
  | .null, .null => true
  | .bool a, .bool b => a == b
  | .num a, .num b => a == b
  | .str a, .str b => a == b
  | .arr a, .arr b => beqList a b
  | .obj a, .obj b => beqObj a b
  | _, _ => false
termination_by structural j => j

def beqList : List Json → List Json → Bool
  | [], [] => true
  | a :: as, b :: bs => beq a b && beqList as bs
  | _, _ => false
termination_by structural xs => xs

def beqObj : List (String × Json) → List (String × Json) → Bool
  | [], [] => true
  | (ka, va) :: as, (kb, vb) :: bs => ka == kb && beq va vb && beqObj as bs
  | _, _ => false
termination_by structural xs => xs
end

end Json

/-- JS truthiness (`Boolean(v)`) of a JSON value.  `NaN` does not occur in
the model, and a missing property (`undefined`) is an absent `Option`. -/
def jsTruthy : Json → Bool
  | .null => false
  | .bool b => b
  | .num n => n != 0
  | .str s => s != ""
  | .arr _ => true
  | .obj _ => true

mutual
/-- JS `String(v)` coercion of a JSON value (used by the implicit coercion
in a regular-expression test).  Arrays stringify as their elements joined
with commas, `null` elements as the empty string, objects as
the fixed object tag. -/
def jsToString : Json → String
  | .null => "null"
  | .bool true => "true"
  | .bool false => "false"
  | .num n => toString n
  | .str s => s
  | .arr xs => jsArrToString xs
  | .obj _ => "[object Object]"
termination_by structural j => j

/-- `Array.prototype.toString`: elements joined by commas, null-ish
elements rendered empty. -/
def jsArrToString : List Json → String
  | [] => ""
  | [.null] => ""
  | [x] => jsToString x
  | .null :: rest => "," ++ jsArrToString rest
  | x :: rest => jsToString x ++ "," ++ jsArrToString rest
termination_by structural xs => xs
end

/-- The regular expression `^\d+$`: a non-empty string of ASCII digits. -/
def digitString (s : String) : Bool :=
  !s.isEmpty && s.data.all Char.isDigit

/-- Property lookup `obj[k]`: `none` models `undefined` (missing property,
or any access on a non-object).  JS objects have unique keys, so the first
match is the binding. -/
def getField (j : Json) (k : String) : Option Json :=
  match j with
  | .obj fields => (fields.find? (fun f => f.1 == k)).map (·.2)
  | _ => none

/-- Read a field at its TypeScript-declared number type; `none` models a
missing, `null`, or differently-typed value (see the header note). -/
def jNum (o : Option Json) : Option Int :=
  match o with
  | some (.num n) => some n
  | _ => none

/-- Read a field at its TypeScript-declared string type. -/
def jStr (o : Option Json) : Option String :=
  match o with
  | some (.str s) => some s
  | _ => none

/-- `record[k]` is present and truthy (the `if (record.k)` idiom). -/
def truthyField (j : Json) (k : String) : Bool :=
  match getField j k with
  | some v => jsTruthy v
  | none => false

/-! ### Dates

`Clock` is the tuple of observations the source makes of `new Date()`:
`getFullYear()`, `getMonth()` (0-based), `getTime()` and `toISOString()`. -/

structure Clock where
  year : Int
  month : Int
  timeMs : Int
  iso : String
deriving DecidableEq, Repr

/-- A parsed creation date: the same three numeric observations. -/
structure JsDate where
  year : Int
  month : Int
  timeMs : Int
deriving DecidableEq, Repr

/-- Days from the civil epoch 1970-01-01 for a Gregorian date
(`y`, `m` in 1..12, `d` in 1..31). -/
def daysFromCivil (y m d : Int) : Int :=
  let y' := if m ≤ 2 then y - 1 else y
  let era := Int.fdiv y' 400
  let yoe := y' - era * 400
  let mp := Int.emod (m + 9) 12
  let doy := Int.fdiv (153 * mp + 2) 5 + d - 1
  let doe := yoe * 365 + Int.fdiv yoe 4 - Int.fdiv yoe 100 + doy
  era * 146097 + doe - 719468

/-- Days in a Gregorian month. -/
def daysInMonth (y m : Int) : Int :=
  if m = 2 then
    if Int.emod y 4 = 0 ∧ (Int.emod y 100 ≠ 0 ∨ Int.emod y 400 = 0) then 29 else 28
  else if m = 4 ∨ m = 6 ∨ m = 9 ∨ m = 11 then 30
  else 31

/-- Split a character list at every dash (the shape of
`String.prototype.split` over the date separator). -/
def splitOnDash : List Char → List (List Char)
  | [] => [[]]
  | c :: rest =>
    let r := splitOnDash rest
    if c = '-' then [] :: r
    else
      match r with
      | [] => [[c]]
      | g :: gs => (c :: g) :: gs

/-- The numeric value of a digit string. -/
def natOfDigits (l : List Char) : Nat :=
  l.foldl (fun n c => n * 10 + (c.toNat - 48)) 0

/-- `new Date(dateStr)` on the ISO `YYYY-MM-DD` subset of the JS date
grammar; `none` is JS Invalid Date (the constructor never throws). -/
def parseDate (s : String) : Option JsDate :=
  match splitOnDash s.data with
  | [ys, ms, ds] =>
    if (!ys.isEmpty && ys.all Char.isDigit) && (!ms.isEmpty && ms.all Char.isDigit) &&
        ((!ds.isEmpty && ds.all Char.isDigit) &&
          (ys.length = 4 && (ms.length = 2 && ds.length = 2))) then
      let y : Int := natOfDigits ys
      let m : Int := natOfDigits ms
      let d : Int := natOfDigits ds
      if 1 ≤ m ∧ m ≤ 12 ∧ 1 ≤ d ∧ d ≤ daysInMonth y m then
        some { year := y, month := m - 1, timeMs := daysFromCivil y m d * 86400000 }
      else none
    else none
  | _ => none

/-- `calculateAge` (injector.ts:63-81).  The empty string is falsy and
yields the placeholder.  For any other string, `new Date` does not throw:
an unparsable date gives `NaN` years/months/days, every `NaN` comparison
is false, and the function falls through to the `0D` bucket — the `catch`
branch returning the placeholder is unreachable. -/
def calculateAge (clock : Clock) (dateStr : String) : String :=
  if dateStr = "" then "—"
  else
    match parseDate dateStr with
    | none => "0D"
    | some created =>
      let years := clock.year - created.year
      let months := clock.month - created.month + years * 12
      let days := Int.fdiv (clock.timeMs - created.timeMs) 86400000
      if years > 0 then toString years ++ "Y"
      else if months > 0 then toString months ++ "M"
      else if days > 0 then toString days ++ "D"
      else "0D"

/-! ### The record data model (src/types, as used by the extractor) -/

structure PinEngagement where
  repins : Int
  comments : Int
  shares : Int
  reactions : Int
deriving DecidableEq, Repr

inductive PinType where
  | image
  | video
  | carousel
deriving DecidableEq, Repr

structure PinDetails where
  id : String
  title : String
  description : String
  link : String
  createdAt : String
  createdAgo : String
  originalImageUrl : String
  originalVideoUrl : String
  isVideo : Bool
  pinType : PinType
deriving DecidableEq, Repr

structure ExternalData where
  bookmarked : Bool
  savedAt : String
  updatedAt : String
deriving DecidableEq, Repr

structure PinData where
  engagement : PinEngagement
  details : PinDetails
  externalData : ExternalData
deriving DecidableEq, Repr

/-- `sumReactions` (injector.ts:86-89): sum of the values of the sparse
reaction map, a missing or null value counting as zero; a falsy or
non-object argument contributes nothing. -/
def sumReactions (o : Option Json) : Int :=
  match o with
  | some (.obj fields) =>
    fields.foldl (fun acc f => acc + (match f.2 with | .num n => n | _ => 0)) 0
  | _ => 0

/-- `detectPinType` (injector.ts:94-98). -/
def detectPinType (j : Json) : PinType :=
  if truthyField j "carousel_data" then .carousel
  else if truthyField j "videos" || truthyField j "is_video" then .video
  else .image

/-- The image-bucket read `images[bucket]?.url`. -/
def imageBucketUrl (images : Json) (bucket : String) : Option String :=
  jStr ((getField images bucket).bind (fun b => getField b "url"))

/-- `extractPinData` (injector.ts:103-159).  Returns `none` exactly when the
guard `!id || !/^\d+$/.test(id)` fires; all other absent source data
degrades to zero / empty string / false. -/
def extractPinData (clock : Clock) (j : Json) : Option PinData :=
  match getField j "id" with
  | none => none
  | some idVal =>
    if !jsTruthy idVal then none
    else if !digitString (jsToString idVal) then none
    else
      let id := jsToString idVal
      let aggData := getField j "aggregated_pin_data"
      let aggStats := aggData.bind (fun a => getField a "aggregated_stats")
      let engagement : PinEngagement :=
        { repins := (jNum (getField j "repin_count")).getD
            ((jNum (aggStats.bind (fun a => getField a "saves"))).getD 0)
          comments := (jNum (aggData.bind (fun a => getField a "comment_count"))).getD 0
          shares := (jNum (getField j "share_count")).getD 0
          reactions := sumReactions (getField j "reaction_counts") }
      let images := getField j "images"
      let fromBuckets : String :=
        match images with
        | some img =>
          if jsTruthy img then
            ((imageBucketUrl img "orig").orElse (fun _ =>
              (imageBucketUrl img "736x").orElse (fun _ =>
                (imageBucketUrl img "474x").orElse (fun _ =>
                  imageBucketUrl img "236x")))).getD ""
          else ""
        | none => ""
      let originalImageUrl : String :=
        if fromBuckets = "" then
          match getField j "image_large_url" with
          | some (.str s) => if s ≠ "" then s else fromBuckets
          | _ => fromBuckets
        else fromBuckets
      let videoList := (getField j "videos").bind (fun v => getField v "video_list")
      let originalVideoUrl : String :=
        match videoList with
        | some vl =>
          if jsTruthy vl then
            ((jStr ((getField vl "V_720P").bind (fun v => getField v "url"))).orElse
              (fun _ => jStr ((getField vl "V_480P").bind (fun v => getField v "url")))).getD ""
          else ""
        | none => ""
      let createdAt := (jStr (getField j "created_at")).getD ""
      some
        { engagement := engagement
          details :=
            { id := id
              title := (jStr (getField j "grid_title")).getD ""
              description := (jStr (getField j "closeup_description")).getD
                ((jStr (getField j "description")).getD "")
              link := (jStr (getField j "link")).getD ""
              createdAt := createdAt
              createdAgo := calculateAge clock createdAt
              originalImageUrl := originalImageUrl
              originalVideoUrl := originalVideoUrl
              isVideo := originalVideoUrl ≠ ""
              pinType := detectPinType j }
          externalData :=
            { bookmarked := false
              savedAt := ""
              updatedAt := clock.iso } }

/-! ### The recursive walk `extractAllPins` (injector.ts:164-201)

The JS helper `findAllPins(obj, depth)` mutates two outer variables,
`pins` (the result, pushed in discovery order) and `seenIDs`; the model
threads them as `WalkSt`.  `findAllPins` returns at `depth > 20`, on
falsy values and on non-objects; on an object it first runs the candidate
check on the node itself, then iterates all property values: an array
value has each of its items walked at `depth + 1`, and an object value is
walked at `depth + 1`.  An array node has no `id` property, so only its
elements (its `Object.keys` values) are visited. -/

structure WalkSt where
  pins : List (String × PinData)
  seen : List String
deriving DecidableEq, Repr

/-- The per-node candidate step of `findAllPins` (injector.ts:174-184):
if the node has a string id matching the digit pattern that was not seen,
extract it and keep it unless it has no image URL and no repins. -/
def tryPin (clock : Clock) (fields : List (String × Json)) (st : WalkSt) : WalkSt :=
  match getField (.obj fields) "id" with
  | some (.str s) =>
    if s ≠ "" ∧ digitString s then
      if st.seen.contains s then st
      else
        match extractPinData clock (.obj fields) with
        | some pd =>
          if pd.details.originalImageUrl ≠ "" ∨ pd.engagement.repins > 0 then
            { pins := st.pins ++ [(s, pd)], seen := s :: st.seen }
          else st
        | none => st
    else st
  | _ => st

mutual
/-- Walk the field values of an object node (the `Object.keys` loop). -/
def walkFields (clock : Clock) : List (String × Json) → Nat → WalkSt → WalkSt
  | [], _, st => st
  | (_, v) :: rest, d, st => walkFields clock rest d (visitVal clock v d st)
termination_by structural fs => fs

/-- Walk the element values of an array node (its `Object.keys` loop). -/
def walkVals (clock : Clock) : List Json → Nat → WalkSt → WalkSt
  | [], _, st => st
  | v :: rest, d, st => walkVals clock rest d (visitVal clock v d st)
termination_by structural vs => vs

/-- One property value at depth `d`: an array has its items recursively
walked at `d + 1`; an object is recursively walked (depth guard, candidate
check, then its own field loop) at `d + 1`; anything else is skipped. -/
def visitVal (clock : Clock) : Json → Nat → WalkSt → WalkSt
  | .arr items, d, st => visitItems clock items d st
  | .obj fields, d, st =>
    if d + 1 > 20 then st
    else walkFields clock fields (d + 1) (tryPin clock fields st)
  | _, _, st => st
termination_by structural j => j

/-- The `for (const item of value)` loop over an array-valued property. -/
def visitItems (clock : Clock) : List Json → Nat → WalkSt → WalkSt
  | [], _, st => st
  | it :: rest, d, st => visitItems clock rest d (visitItem clock it d st)
termination_by structural xs => xs

/-- `findAllPins(item, d + 1)` for one item of an array-valued property. -/
def visitItem (clock : Clock) : Json → Nat → WalkSt → WalkSt
  | .arr xs, d, st => if d + 1 > 20 then st else walkVals clock xs (d + 1) st
  | .obj fields, d, st =>
    if d + 1 > 20 then st
    else walkFields clock fields (d + 1) (tryPin clock fields st)
  | _, _, st => st
termination_by structural j => j
end

/-- `extractAllPins` (injector.ts:164-201): run `findAllPins(data, 0)` on an
empty state and return the discovered pins in push order. -/
def extractAllPins (clock : Clock) (j : Json) : List (String × PinData) :=
  let st0 : WalkSt := { pins := [], seen := [] }
  let st :=
    match j with
    | .arr xs => walkVals clock xs 0 st0
    | .obj fields => walkFields clock fields 0 (tryPin clock fields st0)
    | _ => st0
  st.pins

/-! ### The stats cache (src/unnamed/part_006)

The cache is a JS `Map<string, CacheEntry>`: iteration order is insertion
order, `set` on an existing key overwrites in place, `set` on a fresh key
appends, `delete` removes.  The model is an association list with unique
keys and the same ordering discipline; `Date.now()` is the explicit
`now` argument. -/

/-- The configured maximum entry count (part_006:12). -/
def MAX_CACHE_SIZE : Nat := 5000

/-- The global TTL, 24 hours in milliseconds (part_006:13). -/
def CACHE_TTL_MS : Int := 24 * 60 * 60 * 1000

structure CacheEntry where
  data : PinData
  timestamp : Int
  lastAccessed : Int
deriving DecidableEq, Repr

/-- The in-memory `Map`, in iteration (insertion) order. -/
abbrev CacheMap := List (String × CacheEntry)

/-- `Map.get`: the value at the key's (unique) binding. -/
def mapGet : CacheMap → String → Option CacheEntry
  | [], _ => none
  | p :: rest, k => if p.1 = k then some p.2 else mapGet rest k

/-- `Map.set`: overwrite the existing binding in place, else append a
fresh binding. -/
def mapSet : CacheMap → String → CacheEntry → CacheMap
  | [], k, v => [(k, v)]
  | p :: rest, k, v => if p.1 = k then (k, v) :: rest else p :: mapSet rest k v

/-- `Map.delete`: remove the key's binding. -/
def mapDelete : CacheMap → String → CacheMap
  | [], _ => []
  | p :: rest, k => if p.1 = k then rest else p :: mapDelete rest k

/-- The comparator `a[1].lastAccessed - b[1].lastAccessed` of
part_006:42, as the boolean order of a stable sort. -/
def byLastAccessed (a b : String × CacheEntry) : Bool :=
  a.2.lastAccessed ≤ b.2.lastAccessed

namespace StatsCache

/-- `evictIfNeeded` (part_006:37-51): when over the limit, stably sort the
entries by ascending `lastAccessed` and delete the first
`size - MAX_CACHE_SIZE` keys. -/
def evictIfNeeded (m : CacheMap) : CacheMap :=
  if m.length ≤ MAX_CACHE_SIZE then m
  else
    let entries := m.mergeSort byLastAccessed
    let toRemove := m.length - MAX_CACHE_SIZE
    ((entries.take toRemove).map Prod.fst).foldl mapDelete m

/-- `set` (part_006:156-166): stamp both `timestamp` and `lastAccessed`
with now, then run the eviction check. -/
def set (now : Int) (pinID : String) (data : PinData) (m : CacheMap) : CacheMap :=
  evictIfNeeded (mapSet m pinID { data := data, timestamp := now, lastAccessed := now })

/-- `get` (part_006:174-188): a miss on an absent key; an entry past the
TTL is deleted and reported as a miss; a hit refreshes `lastAccessed`. -/
def get (now : Int) (pinID : String) (m : CacheMap) : Option PinData × CacheMap :=
  match mapGet m pinID with
  | none => (none, m)
  | some entry =>
    if now - entry.timestamp > CACHE_TTL_MS then (none, mapDelete m pinID)
    else (some entry.data, mapSet m pinID { entry with lastAccessed := now })

/-- `has` (part_006:195-206): the same TTL check as `get`, without the
`lastAccessed` refresh and without returning the payload. -/
def has (now : Int) (pinID : String) (m : CacheMap) : Bool × CacheMap :=
  match mapGet m pinID with
  | none => (false, m)
  | some entry =>
    if now - entry.timestamp > CACHE_TTL_MS then (false, mapDelete m pinID)
    else (true, m)

/-- `size` (part_006:232-234). -/
def size (m : CacheMap) : Nat := m.length

end StatsCache

/-- A runtime-partial `PinEngagement` (the spread
`{...old, ...updates.engagement}`). -/
structure PinEngagementPatch where
  repins : Option Int := none
  comments : Option Int := none
  shares : Option Int := none
  reactions : Option Int := none
deriving DecidableEq, Repr

structure PinDetailsPatch where
  id : Option String := none
  title : Option String := none
  description : Option String := none
  link : Option String := none
  createdAt : Option String := none
  createdAgo : Option String := none
  originalImageUrl : Option String := none
  originalVideoUrl : Option String := none
  isVideo : Option Bool := none
  pinType : Option PinType := none
deriving DecidableEq, Repr

structure ExternalDataPatch where
  bookmarked : Option Bool := none
  savedAt : Option String := none
  updatedAt : Option String := none
deriving DecidableEq, Repr

/-- A runtime-partial `PinData` as `update` receives it: each field group
optional, and within a present group each field optional. -/
structure PinDataPatch where
  engagement : Option PinEngagementPatch := none
  details : Option PinDetailsPatch := none
  externalData : Option ExternalDataPatch := none
deriving DecidableEq, Repr

def mergeEngagement (old : PinEngagement) (p : Option PinEngagementPatch) : PinEngagement :=
  match p with
  | none => old
  | some q =>
    { repins := q.repins.getD old.repins
      comments := q.comments.getD old.comments
      shares := q.shares.getD old.shares
      reactions := q.reactions.getD old.reactions }

def mergeDetails (old : PinDetails) (p : Option PinDetailsPatch) : PinDetails :=
  match p with
  | none => old
  | some q =>
    { id := q.id.getD old.id
      title := q.title.getD old.title
      description := q.description.getD old.description
      link := q.link.getD old.link
      createdAt := q.createdAt.getD old.createdAt
      createdAgo := q.createdAgo.getD old.createdAgo
      originalImageUrl := q.originalImageUrl.getD old.originalImageUrl
      originalVideoUrl := q.originalVideoUrl.getD old.originalVideoUrl
      isVideo := q.isVideo.getD old.isVideo
      pinType := q.pinType.getD old.pinType }

def mergeExternalData (old : ExternalData) (p : Option ExternalDataPatch) : ExternalData :=
  match p with
  | none => old
  | some q =>
    { bookmarked := q.bookmarked.getD old.bookmarked
      savedAt := q.savedAt.getD old.savedAt
      updatedAt := q.updatedAt.getD old.updatedAt }

/-- The merged data of part_006:252-270: each field group merges shallowly
with its patch, the whole-record spread being overridden by the three
explicit group merges. -/
def applyPatch (old : PinData) (p : PinDataPatch) : PinData :=
  { engagement := mergeEngagement old.engagement p.engagement
    details := mergeDetails old.details p.details
    externalData := mergeExternalData old.externalData p.externalData }

namespace StatsCache

/-- `update` (part_006:248-274): a no-op on an absent key; otherwise merge
the field groups and refresh `lastAccessed` — the entry keeps its
`timestamp`. -/
def update (now : Int) (pinID : String) (p : PinDataPatch) (m : CacheMap) : CacheMap :=
  match mapGet m pinID with
  | none => m
  | some entry =>
    mapSet m pinID
      { data := applyPatch entry.data p
        timestamp := entry.timestamp
        lastAccessed := now }

end StatsCache

/-! ### The retry policy (src/src/utils/retry.ts)

A thrown JS value is either a `TypeError`, another `Error` carrying a
message, a `Response`-like object with `ok` and `status`, or anything
else.  An async operation is modelled as the map from the attempt index
to that attempt's result: a resolved value, a resolved `Response`-like
value, or a rejection. -/

inductive JsError where
  | typeError
  | errorMsg (message : String)
  | response (ok : Bool) (status : Int)
  | other
deriving DecidableEq, Repr

/-- `error.message.toLowerCase()` contains the pattern. -/
def msgContains (message pat : String) : Bool :=
  decide ((pat.data.map Char.toLower) <:+: (message.data.map Char.toLower))

/-- `isRetryableError` (retry.ts:28-63). -/
def isRetryableError (e : JsError) : Bool :=
  match e with
  | .typeError => true
  | .errorMsg message => msgContains message "fetch" || msgContains message "network"
  | .response ok status =>
    if ok then false
    else if status = 429 then true
    else if 500 ≤ status ∧ status < 600 then true
    else false
  | .other => false

/-- What one attempt of the wrapped operation produces. -/
inductive AttemptResult (α : Type) where
  | value (v : α)
  | resp (ok : Bool) (status : Int)
  | thrown (e : JsError)
deriving DecidableEq, Repr

/-- What `retryWithBackoff` itself produces. -/
inductive RetryOutcome (α : Type) where
  | value (v : α)
  | resp (ok : Bool) (status : Int)
  | err (e : JsError)
deriving DecidableEq, Repr

/-- The observable run of `retryWithBackoff`: how many times the operation
was invoked, the backoff waits performed between attempts (milliseconds,
in order), and the final outcome. -/
structure RetryTrace (α : Type) where
  calls : Nat
  waits : List Int
  outcome : RetryOutcome α
deriving DecidableEq, Repr

/-- `INITIAL_BACKOFF_MS` (retry.ts:7). -/
def INITIAL_BACKOFF_MS : Int := 1000

/-- `MAX_RETRIES` (retry.ts:6). -/
def MAX_RETRIES : Nat := 3

/-- One iteration of the `for (attempt …)` loop of `retryWithBackoff`
(retry.ts:82-117): a resolved non-ok retryable response is re-thrown; a
non-retryable error propagates at once; the last attempt propagates its
error without waiting; otherwise wait `2 ^ attempt * 1000` ms and retry. -/
def retryLoop (op : Nat → AttemptResult α) (maxRetries : Nat) :
    Nat → Nat → RetryTrace α
  | attempt, fuel =>
    match fuel with
    | 0 => { calls := 0, waits := [], outcome := .err .other }
    | fuel' + 1 =>
      let thrownCase (e : JsError) : RetryTrace α :=
        if !isRetryableError e then
          { calls := 1, waits := [], outcome := .err e }
        else if attempt = maxRetries - 1 then
          { calls := 1, waits := [], outcome := .err e }
        else
          let backoffMs := INITIAL_BACKOFF_MS * 2 ^ attempt
          let rest := retryLoop op maxRetries (attempt + 1) fuel'
          { calls := 1 + rest.calls, waits := backoffMs :: rest.waits
            outcome := rest.outcome }
      match op attempt with
      | .value v => { calls := 1, waits := [], outcome := .value v }
      | .resp ok status =>
        if !ok && isRetryableError (.response ok status) then
          thrownCase (.response ok status)
        else { calls := 1, waits := [], outcome := .resp ok status }
      | .thrown e => thrownCase e

/-- `retryWithBackoff` (retry.ts:73-120) with the default
`maxRetries = 3`, observed as a `RetryTrace`. -/
def retryWithBackoff (op : Nat → AttemptResult α) (maxRetries : Nat := MAX_RETRIES) :
    RetryTrace α :=
  retryLoop op maxRetries 0 maxRetries

/-! ### The batch fetch engine (injector.ts:344-450)

`fetchPinStats(id)` runs synchronously up to its first `await`: the
`fetchedPins` has-check and the insertion both happen before any response
is processed, so a whole window first marks its fresh ids as tried, then
settles each fetch.  The network is the environment `env : String →
FetchOutcome`; `fetchedPins` is the `Map<string, number>` of id to
insertion time. -/

/-- `CONCURRENT_LIMIT` (injector.ts:20). -/
def CONCURRENT_LIMIT : Nat := 20

/-- `BATCH_DELAY_MS` (injector.ts:21). -/
def BATCH_DELAY_MS : Int := 100

/-- `RATE_LIMIT_BACKOFF_MS` (injector.ts:22). -/
def RATE_LIMIT_BACKOFF_MS : Int := 1000

/-- How the backing service answers a direct fetch of one id. -/
inductive FetchOutcome where
  | status429
  | httpFail (status : Int)
  | success (body : Json)
  | netError

/-- The tried-pins map (`fetchedPins`), id to insertion time. -/
abbrev FetchedPins := List (String × Int)

def fetchedHas (f : FetchedPins) (id : String) : Bool :=
  f.any (fun p => p.1 == id)

def fetchedSet (f : FetchedPins) (id : String) (t : Int) : FetchedPins :=
  if fetchedHas f id then f.map (fun p => if p.1 == id then (id, t) else p)
  else f ++ [(id, t)]

def fetchedDelete (f : FetchedPins) (id : String) : FetchedPins :=
  f.filter (fun p => p.1 != id)

/-- The synchronous prefix of `fetchPinStats` (injector.ts:345-346) run for
every id of a window before any response settles: an already-tried id is
skipped, a fresh id is recorded with the current time.  Returns the ids
that actually go out on the network, in order. -/
def windowStart (now : Int) (batch : List String) (f : FetchedPins) :
    List String × FetchedPins :=
  match batch with
  | [] => ([], f)
  | id :: rest =>
    if fetchedHas f id then windowStart now rest f
    else
      let r := windowStart now rest (fetchedSet f id now)
      (id :: r.1, r.2)

/-- The settling of one issued fetch (injector.ts:381-420): HTTP 429
deletes the id from `fetchedPins` and reports the rate limit; a thrown
network/parse error deletes the id; any other response keeps it.  Returns
whether this fetch reported a rate limit. -/
def settleOne (env : String → FetchOutcome) (f : FetchedPins) (id : String) :
    Bool × FetchedPins :=
  match env id with
  | .status429 => (true, fetchedDelete f id)
  | .netError => (false, fetchedDelete f id)
  | .httpFail _ => (false, f)
  | .success _ => (false, f)

/-- Settle every issued fetch of a window; the window is rate-limited when
any outcome is (`results.some(...)`, injector.ts:438). -/
def settleWindow (env : String → FetchOutcome) (issued : List String) (f : FetchedPins) :
    Bool × FetchedPins :=
  match issued with
  | [] => (false, f)
  | id :: rest =>
    let r1 := settleOne env f id
    let r2 := settleWindow env rest r1.2
    (r1.1 || r2.1, r2.2)

/-- One observable event of `fetchBatchParallel`: a window of ids handed
to `Promise.all`, or a timer wait in milliseconds. -/
inductive BatchEvent where
  | window (ids : List String)
  | sleep (ms : Int)
deriving DecidableEq, Repr

/-- The loop of `fetchBatchParallel` (injector.ts:430-447) over the
remaining ids: slice a window, settle it, then wait the rate-limit backoff
if any outcome was rate-limited, else the inter-window delay if ids
remain. -/
def batchLoop (env : String → FetchOutcome) (now : Int) :
    List String → FetchedPins → List BatchEvent × FetchedPins
  | [], f => ([], f)
  | ids@(_ :: _), f =>
    let batch := ids.take CONCURRENT_LIMIT
    let rest := ids.drop CONCURRENT_LIMIT
    let r1 := windowStart now batch f
    let r2 := settleWindow env r1.1 r1.2
    let delays : List BatchEvent :=
      if r2.1 then [.sleep RATE_LIMIT_BACKOFF_MS]
      else if rest.isEmpty then [] else [.sleep BATCH_DELAY_MS]
    let r3 := batchLoop env now rest r2.2
    (.window batch :: delays ++ r3.1, r3.2)
termination_by ids _ => ids.length
decreasing_by
  simp_all [List.length_drop, CONCURRENT_LIMIT]
  omega

/-- `fetchBatchParallel` (injector.ts:427-450), observed as its event
trace and the final tried-pins map. -/
def fetchBatchParallel (env : String → FetchOutcome) (now : Int)
    (pinIDs : List String) (f : FetchedPins) : List BatchEvent × FetchedPins :=
  batchLoop env now pinIDs f

/-! ### The content-script side of the channel (src/unnamed/part_005)

State of the module variables around `requestStatsFetch`
(part_005:20-36): the `injectorReady` flag, the pre-ready backlog
`pendingFetchRequests`, the in-flight set `pendingRequests`, the debounced
`fetchQueue` and its timer, and the follow-up timeout scheduled inside the
timer callback.  `window.postMessage` of a fetch-stats batch is recorded
in `sent`.  The cache read `cache.get(pinID)` combined with
`hasValidStats` is abstracted as the pure predicate `cachedValid`
(the claims quantify over ids that are not validly cached). -/

/-- `MAX_BATCH_SIZE` (part_005:26). -/
def MAX_BATCH_SIZE : Nat := 20

structure ConsumerSt where
  injectorReady : Bool
  pendingFetchRequests : List String
  pendingRequests : List String
  fetchQueue : List String
  timerPending : Bool
  followUpPending : Bool
  sent : List (List String)
deriving DecidableEq, Repr

/-- The consumer before any message: awaiting the ready signal, nothing
queued. -/
def initialConsumer : ConsumerSt :=
  { injectorReady := false, pendingFetchRequests := [], pendingRequests := []
    fetchQueue := [], timerPending := false, followUpPending := false, sent := [] }

/-- `requestStatsFetch` (part_005:152-192) up to its timer callback: skip
ids already pending or validly cached; while the injector is not ready,
append to the backlog unless already there; once ready, mark pending,
enqueue, and (re)arm the debounce timer. -/
def requestStatsFetch (cachedValid : String → Bool) (pinID : String)
    (st : ConsumerSt) : ConsumerSt :=
  if st.pendingRequests.contains pinID then st
  else if cachedValid pinID then st
  else if !st.injectorReady then
    if st.pendingFetchRequests.contains pinID then st
    else { st with pendingFetchRequests := st.pendingFetchRequests ++ [pinID] }
  else
    { st with
      pendingRequests := st.pendingRequests ++ [pinID]
      fetchQueue := st.fetchQueue ++ [pinID]
      timerPending := true }

/-- The `injector-ready` branch of the message listener
(part_005:116-127): set the flag, take the backlog, clear it, and replay
each backlogged id through `requestStatsFetch`. -/
def onInjectorReady (cachedValid : String → Bool) (st : ConsumerSt) : ConsumerSt :=
  let st1 := { st with injectorReady := true }
  if st.pendingFetchRequests.isEmpty then st1
  else
    let pinsToFetch := st1.pendingFetchRequests
    let st2 := { st1 with pendingFetchRequests := [] }
    pinsToFetch.foldl (fun s id => requestStatsFetch cachedValid id s) st2

/-- The debounce-timer callback (part_005:174-191): splice off at most
`MAX_BATCH_SIZE` ids, post them as one fetch-stats message, and when the
queue is non-empty schedule `requestStatsFetch(fetchQueue[0])`. -/
def timerFire (st : ConsumerSt) : ConsumerSt :=
  if !st.timerPending then st
  else
    let st1 := { st with timerPending := false }
    if st1.fetchQueue.isEmpty then st1
    else
      let batch := st1.fetchQueue.take MAX_BATCH_SIZE
      let rest := st1.fetchQueue.drop MAX_BATCH_SIZE
      { st1 with
        fetchQueue := rest
        sent := st1.sent ++ [batch]
        followUpPending := !rest.isEmpty }

/-- The follow-up timeout scheduled by the timer callback: it calls
`requestStatsFetch` on the queue's current head. -/
def followUpFire (cachedValid : String → Bool) (st : ConsumerSt) : ConsumerSt :=
  if !st.followUpPending then st
  else
    let st1 := { st with followUpPending := false }
    match st1.fetchQueue with
    | [] => st1
    | id :: _ => requestStatsFetch cachedValid id st1

/-- A sequence of `requestStatsFetch` calls. -/
def requestAll (cachedValid : String → Bool) (ids : List String)
    (st : ConsumerSt) : ConsumerSt :=
  ids.foldl (fun s id => requestStatsFetch cachedValid id s) st

/-! ### Derived notions and concrete scenarios used by the claims -/

/-- A property of walk states preserved by the candidate step.  Every
state change of the walk goes through `tryPin`, so such a property is
preserved by the whole walk. -/
def TryPinStable (P : WalkSt → Prop) : Prop :=
  ∀ (clock : Clock) (fields : List (String × Json)) (st : WalkSt), P st → P (tryPin clock fields st)

/-- The filter of injector.ts:179: a retained record has an image URL or a
positive repin count. -/
def keptPin (p : String × PinData) : Prop :=
  p.2.details.originalImageUrl ≠ "" ∨ p.2.engagement.repins > 0

/-- Every pin in the state passed the retain filter. -/
def WalkKept (st : WalkSt) : Prop := ∀ p ∈ st.pins, keptPin p

/-- Dedup bookkeeping: result ids are distinct, and each is recorded in
the seen set. -/
def WalkDedup (st : WalkSt) : Prop :=
  (st.pins.map Prod.fst).Nodup ∧ ∀ p ∈ st.pins, p.1 ∈ st.seen

/-- The claim's condition on the raw object: the id property is missing,
falsy, or its (coerced) string fails the digit pattern. -/
def idMissingOrInvalid (j : Json) : Prop :=
  ∀ v, getField j "id" = some v →
    jsTruthy v = false ∨ digitString (jsToString v) = false

/-- A fixed ambient date (2024-01-01T00:00:00Z) for concrete scenarios. -/
def clock0 : Clock :=
  { year := 2024, month := 0, timeMs := 1704067200000, iso := "2024-01-01T00:00:00.000Z" }

/-- The record produced from an object carrying only a valid id: every
counter zero, every string empty, no video, type image, annotation fields
at their initial values. -/
def defaultPinData (clock : Clock) (s : String) : PinData :=
  { engagement := { repins := 0, comments := 0, shares := 0, reactions := 0 }
    details :=
      { id := s, title := "", description := "", link := "", createdAt := ""
        createdAgo := "—", originalImageUrl := "", originalVideoUrl := ""
        isVideo := false, pinType := .image }
    externalData := { bookmarked := false, savedAt := "", updatedAt := clock.iso } }

/-- A syntactically valid but semantically empty candidate: a valid id,
no image URL, zero repins. -/
def emptyCandidate : Json := .obj [("id", .str "123456")]

/-- A candidate with repins only (kept by the `extractAllPins` filter). -/
def repinsOnlyPin : Json := .obj [("id", .str "1"), ("repin_count", .num 5)]

/-- The record `extractPinData` produces from `repinsOnlyPin`. -/
def repinsOnlyData : PinData :=
  { defaultPinData clock0 "1" with
    engagement := { repins := 5, comments := 0, shares := 0, reactions := 0 } }

/-- The C6 scenario: a three-level nested structure with two valid records
and the first record's id repeated at a different depth with different
content. -/
def nestedDoc : Json :=
  .obj [("data", .obj [("items", .arr
    [ .obj [("id", .str "11"), ("repin_count", .num 7)]
    , .obj [("sub", .obj [("id", .str "22"), ("repin_count", .num 3)])]
    , .obj [("deep", .obj [("id", .str "11"), ("repin_count", .num 99)])] ])])]

def pin11Data : PinData :=
  { defaultPinData clock0 "11" with
    engagement := { repins := 7, comments := 0, shares := 0, reactions := 0 } }

def pin22Data : PinData :=
  { defaultPinData clock0 "22" with
    engagement := { repins := 3, comments := 0, shares := 0, reactions := 0 } }

/-- The map keys are pairwise distinct (true of every JS `Map`). -/
def keysNodup (m : CacheMap) : Prop := (m.map Prod.fst).Nodup

/-- One read or partial-update operation against the cache. -/
inductive CacheOp where
  | read (now : Int) (id : String)
  | patch (now : Int) (id : String) (p : PinDataPatch)

def applyCacheOp (m : CacheMap) : CacheOp → CacheMap
  | .read now id => (StatsCache.get now id m).2
  | .patch now id p => StatsCache.update now id p m

def applyCacheOps (m : CacheMap) (ops : List CacheOp) : CacheMap :=
  ops.foldl applyCacheOp m

/-- Insert a list of fresh records one per millisecond (the C3 scenario of
`maxSize + k` distinct ids, each insertion more recent than the last). -/
def insertSeq : List String → Int → CacheMap → CacheMap
  | [], _, m => m
  | id :: rest, t, m => insertSeq rest (t + 1) (StatsCache.set t id (defaultPinData clock0 id) m)

/-- A small concrete cache entry for witnesses. -/
def entryAt (t : Int) : CacheEntry :=
  { data := defaultPinData clock0 "1", timestamp := t, lastAccessed := t }

/-- The operation of the C4 scenario: two retryable failures, then a
value. -/
def opFailFailOk : Nat → AttemptResult Nat :=
  fun n => if n < 2 then .thrown .typeError else .value 7

/-- The operation of the C4 scenario: an immediate non-retryable failure. -/
def opFatal : Nat → AttemptResult Nat :=
  fun _ => .thrown (.response false 404)

/-- The operation of the C4 scenario: every attempt fails retryably, the
last with a distinguishable error. -/
def opAlwaysFail : Nat → AttemptResult Nat :=
  fun n => if n < 2 then .thrown .typeError else .thrown (.response false 503)

/-- Partition into slices of `n` (the `for (i += n) slice(i, i + n)`
loop). -/
def chunksOf (n : Nat) : List α → List (List α)
  | [] => []
  | l@(_ :: _) => if n = 0 then [l] else l.take n :: chunksOf n (l.drop n)
termination_by l => l.length
decreasing_by
  simp_all [List.length_drop]
  omega

/-- Whether an outcome is the rate-limit signal. -/
def isRateLimited : FetchOutcome → Bool
  | .status429 => true
  | _ => false

/-- The trace the claim describes: the windows in order, exactly one
sleep between consecutive windows — the rate-limit backoff when some id
of the window was answered 429, else the inter-window delay — and the
backoff also after a rate-limited final window. -/
def weaveTrace (env : String → FetchOutcome) : List (List String) → List BatchEvent
  | [] => []
  | [w] =>
    .window w ::
      (if w.any (fun id => isRateLimited (env id)) then [.sleep RATE_LIMIT_BACKOFF_MS] else [])
  | w :: ws =>
    .window w ::
      .sleep (if w.any (fun id => isRateLimited (env id)) then RATE_LIMIT_BACKOFF_MS
              else BATCH_DELAY_MS) ::
      weaveTrace env ws

/-- First-occurrence deduplication (the backlog's membership check). -/
def dedupFirst (ids : List String) : List String :=
  ids.foldl (fun acc id => if acc.contains id then acc else acc ++ [id]) []

/-- 21 distinct ids, one more than the batch-size cap. -/
def ids21 : List String := (List.range 21).map (fun n => toString (n + 1))

/-- No id is validly cached (the C7 scenario's cache predicate). -/
def noValidCache : String → Bool := fun _ => false

/-- The complete C7 run on 21 ids: all requests arrive while awaiting the
ready signal, then the ready signal, then the debounce timer, then the
follow-up timeout it schedules. -/
def run21 : ConsumerSt :=
  followUpFire noValidCache
    (timerFire (onInjectorReady noValidCache (requestAll noValidCache ids21 initialConsumer)))

/-- A backing service that answers id "6" with HTTP 429 and every other
id with an empty success body. -/
def env429 : String → FetchOutcome := fun id => if id == "6" then .status429 else .success (.obj [])

/-- A string of `i` letters (injective in `i`), for large distinct-id
scenarios. -/
def aOf (i : Nat) : String := String.mk (List.replicate i 'a')

/-- `n` distinct ids. -/
def bigIds (n : Nat) : List String := (List.range n).map aOf

/-- A cache one entry over the maximum size. -/
def bigCache : CacheMap := (bigIds (MAX_CACHE_SIZE + 1)).map (fun id => (id, entryAt 0))

/-! ## Proofs -/

/-! ### Invariants of the recursive walk -/

mutual
theorem walkFields_stable {P : WalkSt → Prop} (hP : TryPinStable P) (clock : Clock) :
    (fs : List (String × Json)) → (d : Nat) → (st : WalkSt) → P st →
    P (walkFields clock fs d st)
  | [], _, _, h => h
  | (_, v) :: rest, d, st, h =>
    walkFields_stable hP clock rest d _ (visitVal_stable hP clock v d st h)
termination_by structural fs => fs

theorem walkVals_stable {P : WalkSt → Prop} (hP : TryPinStable P) (clock : Clock) :
    (vs : List Json) → (d : Nat) → (st : WalkSt) → P st → P (walkVals clock vs d st)
  | [], _, _, h => h
  | v :: rest, d, st, h =>
    walkVals_stable hP clock rest d _ (visitVal_stable hP clock v d st h)
termination_by structural vs => vs

theorem visitVal_stable {P : WalkSt → Prop} (hP : TryPinStable P) (clock : Clock) :
    (j : Json) → (d : Nat) → (st : WalkSt) → P st → P (visitVal clock j d st)
  | .arr items, d, st, h => visitItems_stable hP clock items d st h
  | .obj fields, d, st, h =>
    if hd : d + 1 > 20 then by simpa [visitVal, hd] using h
    else by
      have h2 := walkFields_stable hP clock fields (d + 1) (tryPin clock fields st)
        (hP clock fields st h)
      simpa [visitVal, hd] using h2
  | .null, _, _, h => h
  | .bool _, _, _, h => h
  | .num _, _, _, h => h
  | .str _, _, _, h => h
termination_by structural j => j

theorem visitItems_stable {P : WalkSt → Prop} (hP : TryPinStable P) (clock : Clock) :
    (xs : List Json) → (d : Nat) → (st : WalkSt) → P st → P (visitItems clock xs d st)
  | [], _, _, h => h
  | it :: rest, d, st, h =>
    visitItems_stable hP clock rest d _ (visitItem_stable hP clock it d st h)
termination_by structural xs => xs

theorem visitItem_stable {P : WalkSt → Prop} (hP : TryPinStable P) (clock : Clock) :
    (j : Json) → (d : Nat) → (st : WalkSt) → P st → P (visitItem clock j d st)
  | .arr xs, d, st, h =>
    if hd : d + 1 > 20 then by simpa [visitItem, hd] using h
    else by
      have h2 := walkVals_stable hP clock xs (d + 1) st h
      simpa [visitItem, hd] using h2
  | .obj fields, d, st, h =>
    if hd : d + 1 > 20 then by simpa [visitItem, hd] using h
    else by
      have h2 := walkFields_stable hP clock fields (d + 1) (tryPin clock fields st)
        (hP clock fields st h)
      simpa [visitItem, hd] using h2
  | .null, _, _, h => h
  | .bool _, _, _, h => h
  | .num _, _, _, h => h
  | .str _, _, _, h => h
termination_by structural j => j
end

/-- A `tryPin`-stable property holds of the final walk state whenever it
holds of the empty initial state. -/
theorem extractAllPins_stable {P : WalkSt → Prop} (hP : TryPinStable P) (clock : Clock)
    (j : Json) (h0 : P { pins := [], seen := [] }) :
    P { pins := extractAllPins clock j,
        seen := (match j with
                 | .arr xs => walkVals clock xs 0 { pins := [], seen := [] }
                 | .obj fields =>
                   walkFields clock fields 0 (tryPin clock fields { pins := [], seen := [] })
                 | _ => { pins := [], seen := [] } : WalkSt).seen } := by
  cases j with
  | arr xs =>
    have := walkVals_stable hP clock xs 0 { pins := [], seen := [] } h0
    simpa [extractAllPins] using this
  | obj fields =>
    have := walkFields_stable hP clock fields 0 (tryPin clock fields { pins := [], seen := [] })
      (hP clock fields _ h0)
    simpa [extractAllPins] using this
  | null => simpa [extractAllPins] using h0
  | bool b => simpa [extractAllPins] using h0
  | num n => simpa [extractAllPins] using h0
  | str s => simpa [extractAllPins] using h0

theorem tryPin_kept : TryPinStable WalkKept := by
  intro clock fields st h
  unfold tryPin
  split
  case h_2 => exact h
  case h_1 s heq =>
    split
    · split
      · exact h
      · split
        case h_2 => exact h
        case h_1 pd hpd =>
          split
          case isFalse => exact h
          case isTrue hkeep =>
            intro p hp
            simp only [List.mem_append, List.mem_singleton] at hp
            rcases hp with hp | hp
            · exact h p hp
            · subst hp; exact hkeep
    · exact h

theorem tryPin_dedup : TryPinStable WalkDedup := by
  intro clock fields st h
  unfold tryPin
  split
  case h_2 => exact h
  case h_1 s heq =>
    split
    · split
      case isTrue => exact h
      case isFalse hseen =>
        split
        case h_2 => exact h
        case h_1 pd hpd =>
          split
          case isFalse => exact h
          case isTrue =>
            have hs : s ∉ st.seen := by
              simpa using hseen
            constructor
            · simp only [List.map_append, List.map_cons, List.map_nil]
              rw [List.nodup_append]
              refine ⟨h.1, by simp, ?_⟩
              intro x hx
              have hxs : x ∈ st.seen := by
                rcases List.mem_map.mp hx with ⟨p, hp, rfl⟩
                exact h.2 p hp
              simp only [List.mem_singleton]
              intro hxe
              exact hs (hxe ▸ hxs)
            · intro p hp
              simp only [List.mem_append, List.mem_singleton] at hp
              rcases hp with hp | hp
              · exact List.mem_cons_of_mem _ (h.2 p hp)
              · subst hp; exact List.mem_cons_self _ _
    · exact h

/-! ### C1, C6, C9 -/

/-- C1: for every JSON value, `extractAllPins` excludes every candidate
whose extracted record has an empty `details.originalImageUrl` and zero
`engagement.repins`; such a record never appears in the returned list,
even though `extractPinData` alone produces one from an id-only object
(on which `extractAllPins` returns the empty list). -/
theorem c1_extractAll_excludes_empty_records :
    (∀ (clock : Clock) (j : Json) (p : String × PinData),
      p ∈ extractAllPins clock j →
      ¬(p.2.details.originalImageUrl = "" ∧ p.2.engagement.repins = 0)) ∧
    extractPinData clock0 emptyCandidate = some (defaultPinData clock0 "123456") ∧
    extractAllPins clock0 emptyCandidate = [] := by
  refine ⟨?_, by decide, by decide⟩
  intro clock j p hp hcontr
  have hk := extractAllPins_stable tryPin_kept clock j (by intro q hq; simp at hq)
  have hkept := hk p hp
  rcases hkept with h1 | h1
  · exact h1 hcontr.1
  · rw [hcontr.2] at h1
    exact absurd h1 (by norm_num)

/-- Witness for C1 at a concrete input: a record with repins is retained,
and the retained pair is not image-empty-and-repin-free. -/
theorem c1_extractAll_excludes_empty_records_witness :
    ("1", repinsOnlyData) ∈ extractAllPins clock0 repinsOnlyPin ∧
    ¬((("1", repinsOnlyData) : String × PinData).2.details.originalImageUrl = "" ∧
      (("1", repinsOnlyData) : String × PinData).2.engagement.repins = 0) :=
  ⟨by decide,
   c1_extractAll_excludes_empty_records.1 clock0 repinsOnlyPin ("1", repinsOnlyData) (by decide)⟩

/-- C6: within one call, `extractAllPins` yields at most one entry per id
(the id list is duplicate-free for every input), and on the three-level
nested scenario with a duplicated id at a different depth it returns
exactly the two records in first-encounter order, the first-seen version
of the duplicate retained (repins 7, not 99). -/
theorem c6_extractAll_dedup_first_wins :
    (∀ (clock : Clock) (j : Json), ((extractAllPins clock j).map Prod.fst).Nodup) ∧
    extractAllPins clock0 nestedDoc = [("11", pin11Data), ("22", pin22Data)] := by
  refine ⟨?_, by decide⟩
  intro clock j
  have hk := extractAllPins_stable tryPin_dedup clock j ⟨by simp, by simp⟩
  exact hk.1

/-- C9 (failing input): on the non-empty unparsable timestamp
`"not-a-date"`, `calculateAge` returns the `"0D"` age bucket, not the
placeholder glyph — `new Date` yields Invalid Date without throwing, the
`NaN` comparisons are all false, and the catch branch never runs.  The
placeholder is produced only for the absent (empty) timestamp; parsable
dates produce their bucket. -/
theorem c9_unparsable_date_yields_zero_days :
    calculateAge clock0 "not-a-date" = "0D" ∧
    calculateAge clock0 "not-a-date" ≠ "—" ∧
    calculateAge clock0 "" = "—" ∧
    calculateAge clock0 "2022-03-15" = "2Y" := by decide

/-! ### C5 -/

/-- C5: `extractPinData` returns `none` exactly when the raw object's id
is missing or fails the digit pattern (under the regular-expression
test's string coercion); with a valid id, every other absent source field
degrades to its default — zero counters, empty strings, `false` — and
extraction succeeds. -/
theorem c5_extract_null_iff_invalid_id :
    (∀ (clock : Clock) (j : Json),
      extractPinData clock j = none ↔ idMissingOrInvalid j) ∧
    (∀ (clock : Clock) (s : String), digitString s = true →
      extractPinData clock (.obj [("id", .str s)]) = some (defaultPinData clock s)) := by
  constructor
  · intro clock j
    cases hv : getField j "id" with
    | none => simp [extractPinData, idMissingOrInvalid, hv]
    | some v =>
      by_cases ht : jsTruthy v
      · by_cases hd' : digitString (jsToString v)
        · simp [extractPinData, ht, hd', idMissingOrInvalid, hv]
        · simp [extractPinData, ht, hd', idMissingOrInvalid, hv]
      · simp [extractPinData, ht, idMissingOrInvalid, hv]
  · intro clock s hs
    have hne : s ≠ "" := by
      intro h
      subst h
      exact absurd hs (by decide)
    have htr : jsTruthy (.str s) = true := by
      simp [jsTruthy, hne]
    simp [extractPinData, getField, htr, jsToString, hs, defaultPinData, jNum, jStr,
      sumReactions, detectPinType, truthyField, calculateAge, imageBucketUrl]

/-- Witness for C5 at concrete inputs: an object without id maps to
`none`; an object with only the id `"42"` maps to the all-defaults
record. -/
theorem c5_extract_null_iff_invalid_id_witness :
    (extractPinData clock0 (Json.obj []) = none ↔ idMissingOrInvalid (Json.obj [])) ∧
    extractPinData clock0 (Json.obj [("id", Json.str "42")]) =
      some (defaultPinData clock0 "42") :=
  ⟨c5_extract_null_iff_invalid_id.1 clock0 (Json.obj []),
   c5_extract_null_iff_invalid_id.2 clock0 "42" (by decide)⟩

/-! ### C4 -/

/-- C4: with the default three attempts, an operation that fails twice
with a retryable error and then succeeds is invoked exactly three times
with waits of 1000ms then 2000ms and its result is returned; a
non-retryable failure propagates at once with no retry and no wait; three
retryable failures propagate the last one after the same two waits.  The
retryable class is network-type errors, fetch/network-message errors,
HTTP 429 and HTTP 5xx; other 4xx and `ok` responses are not retryable. -/
theorem c4_retry_with_backoff_policy :
    (∀ (α : Type) (op : Nat → AttemptResult α) (e₁ e₂ : JsError) (v : α),
      isRetryableError e₁ = true → isRetryableError e₂ = true →
      op 0 = .thrown e₁ → op 1 = .thrown e₂ → op 2 = .value v →
      retryWithBackoff op = { calls := 3, waits := [1000, 2000], outcome := .value v }) ∧
    (∀ (α : Type) (op : Nat → AttemptResult α) (e : JsError),
      isRetryableError e = false → op 0 = .thrown e →
      retryWithBackoff op = { calls := 1, waits := [], outcome := .err e }) ∧
    (∀ (α : Type) (op : Nat → AttemptResult α) (e₁ e₂ e₃ : JsError),
      isRetryableError e₁ = true → isRetryableError e₂ = true → isRetryableError e₃ = true →
      op 0 = .thrown e₁ → op 1 = .thrown e₂ → op 2 = .thrown e₃ →
      retryWithBackoff op = { calls := 3, waits := [1000, 2000], outcome := .err e₃ }) ∧
    (isRetryableError .typeError = true ∧
     isRetryableError (.errorMsg "Failed to fetch") = true ∧
     isRetryableError (.response false 429) = true ∧
     (∀ s : Int, 500 ≤ s → s < 600 → isRetryableError (.response false s) = true) ∧
     isRetryableError (.response false 404) = false ∧
     (∀ s : Int, isRetryableError (.response true s) = false)) := by
  refine ⟨?_, ?_, ?_, by decide, by decide, by decide, ?_, by decide, ?_⟩
  · intro α op e₁ e₂ v hr1 hr2 h0 h1 h2
    simp [retryWithBackoff, retryLoop, MAX_RETRIES, h0, h1, h2, hr1, hr2, INITIAL_BACKOFF_MS]
  · intro α op e hr h0
    simp [retryWithBackoff, retryLoop, MAX_RETRIES, h0, hr]
  · intro α op e₁ e₂ e₃ hr1 hr2 hr3 h0 h1 h2
    simp [retryWithBackoff, retryLoop, MAX_RETRIES, h0, h1, h2, hr1, hr2, hr3, INITIAL_BACKOFF_MS]
  · intro s h5 h6
    simp only [isRetryableError]
    rw [if_neg (by simp), if_neg (by omega), if_pos ⟨h5, h6⟩]
  · intro s
    simp [isRetryableError]

/-- Witness for C4 at concrete operations: fail-fail-succeed, an
immediate 404, and three failures ending in a 503. -/
theorem c4_retry_with_backoff_policy_witness :
    retryWithBackoff opFailFailOk = { calls := 3, waits := [1000, 2000], outcome := .value 7 } ∧
    retryWithBackoff opFatal =
      { calls := 1, waits := [], outcome := .err (.response false 404) } ∧
    retryWithBackoff opAlwaysFail =
      { calls := 3, waits := [1000, 2000], outcome := .err (.response false 503) } :=
  ⟨c4_retry_with_backoff_policy.1 Nat opFailFailOk .typeError .typeError 7
     (by decide) (by decide) rfl rfl rfl,
   c4_retry_with_backoff_policy.2.1 Nat opFatal (.response false 404) (by decide) rfl,
   c4_retry_with_backoff_policy.2.2.1 Nat opAlwaysFail .typeError .typeError
     (.response false 503) (by decide) (by decide) (by decide) rfl rfl rfl⟩

/-! ### Association-map lemmas, C2 -/


theorem mapGet_mapSet_self (m : CacheMap) (k : String) (v : CacheEntry) :
    mapGet (mapSet m k v) k = some v := by
  induction m with
  | nil => simp [mapGet, mapSet]
  | cons p rest ih =>
    by_cases hp : p.1 = k
    · simp [mapGet, mapSet, hp]
    · simp [mapGet, mapSet, hp, ih]

theorem mapGet_mapSet_ne (m : CacheMap) (k k' : String) (v : CacheEntry) (h : k' ≠ k) :
    mapGet (mapSet m k v) k' = mapGet m k' := by
  have hkk : ¬(k = k') := fun hh => h hh.symm
  induction m with
  | nil => simp [mapGet, mapSet, hkk]
  | cons p rest ih =>
    by_cases hp : p.1 = k
    · rw [mapSet, if_pos hp, mapGet, if_neg hkk, mapGet, hp, if_neg hkk]
    · rw [mapSet, if_neg hp]
      by_cases hp' : p.1 = k'
      · rw [mapGet, if_pos hp', mapGet, if_pos hp']
      · rw [mapGet, if_neg hp', mapGet, if_neg hp', ih]

theorem mapGet_eq_none_of_not_mem (m : CacheMap) (k : String)
    (h : k ∉ m.map Prod.fst) : mapGet m k = none := by
  induction m with
  | nil => simp [mapGet]
  | cons p rest ih =>
    have hp : ¬(p.1 = k) := by
      intro hh
      exact h (by simp [hh.symm])
    rw [mapGet, if_neg hp]
    exact ih (fun hm => h (by simp; right; simpa using hm))

theorem mapGet_mapDelete_self (m : CacheMap) (k : String) (hk : keysNodup m) :
    mapGet (mapDelete m k) k = none := by
  induction m with
  | nil => simp [mapGet, mapDelete]
  | cons p rest ih =>
    have hk' : (p.1 :: rest.map Prod.fst).Nodup := by simpa [keysNodup] using hk
    obtain ⟨hk1, hk2⟩ := List.nodup_cons.mp hk'
    by_cases hp : p.1 = k
    · rw [mapDelete, if_pos hp]
      exact mapGet_eq_none_of_not_mem rest k (hp ▸ hk1)
    · rw [mapDelete, if_neg hp, mapGet, if_neg hp]
      exact ih (by simpa [keysNodup] using hk2)

theorem mapGet_mapDelete_ne (m : CacheMap) (k k' : String) (h : k' ≠ k) :
    mapGet (mapDelete m k) k' = mapGet m k' := by
  induction m with
  | nil => simp [mapGet, mapDelete]
  | cons p rest ih =>
    by_cases hp : p.1 = k
    · rw [mapDelete, if_pos hp, mapGet, hp, if_neg (fun hh => h hh.symm)]
    · by_cases hp' : p.1 = k'
      · rw [mapDelete, if_neg hp, mapGet, if_pos hp', mapGet, if_pos hp']
      · rw [mapDelete, if_neg hp, mapGet, if_neg hp', mapGet, if_neg hp', ih]

theorem length_mapDelete_lt (m : CacheMap) (k : String) (e : CacheEntry)
    (h : mapGet m k = some e) : (mapDelete m k).length < m.length := by
  induction m with
  | nil => simp [mapGet] at h
  | cons p rest ih =>
    by_cases hp : p.1 = k
    · rw [mapDelete, if_pos hp]
      simp
    · rw [mapGet, if_neg hp] at h
      rw [mapDelete, if_neg hp]
      simpa using Nat.succ_lt_succ (ih h)



/-- C2: for every cache state and id whose entry is past the TTL
(`now - timestamp > CACHE_TTL_MS`), `get` deletes the entry and returns a
miss and `has` deletes the entry and returns false, so the subsequent
`size` is strictly smaller; for an unexpired entry, `get` returns the
stored record and refreshes `lastAccessed`, while `has` returns true and
leaves the state untouched. -/
theorem c2_cache_get_has_ttl :
    ∀ (m : CacheMap) (id : String) (now : Int) (e : CacheEntry),
      mapGet m id = some e →
      ((now - e.timestamp > CACHE_TTL_MS →
        StatsCache.get now id m = (none, mapDelete m id) ∧
        StatsCache.has now id m = (false, mapDelete m id) ∧
        StatsCache.size (mapDelete m id) < StatsCache.size m) ∧
       (now - e.timestamp ≤ CACHE_TTL_MS →
        StatsCache.get now id m =
          (some e.data, mapSet m id { e with lastAccessed := now }) ∧
        mapGet (mapSet m id { e with lastAccessed := now }) id =
          some { e with lastAccessed := now } ∧
        StatsCache.has now id m = (true, m))) := by
  intro m id now e h
  constructor
  · intro hexp
    refine ⟨?_, ?_, ?_⟩
    · simp [StatsCache.get, h, hexp]
    · simp [StatsCache.has, h, hexp]
    · exact length_mapDelete_lt m id e h
  · intro hfresh
    have hnot : ¬(now - e.timestamp > CACHE_TTL_MS) := not_lt.mpr hfresh
    refine ⟨?_, mapGet_mapSet_self m id _, ?_⟩
    · simp [StatsCache.get, h, hnot]
    · simp [StatsCache.has, h, hnot]

/-- Witness for C2 on a one-entry cache: the expired read at
`TTL + 1` ms and the fresh read at 5 ms. -/
theorem c2_cache_get_has_ttl_witness :
    (StatsCache.get 86400001 "1" [("1", entryAt 0)] =
        (none, mapDelete [("1", entryAt 0)] "1") ∧
      StatsCache.has 86400001 "1" [("1", entryAt 0)] =
        (false, mapDelete [("1", entryAt 0)] "1") ∧
      StatsCache.size (mapDelete [("1", entryAt 0)] "1") <
        StatsCache.size [("1", entryAt 0)]) ∧
    (StatsCache.get 5 "1" [("1", entryAt 0)] =
        (some (entryAt 0).data, mapSet [("1", entryAt 0)] "1" { entryAt 0 with lastAccessed := 5 }) ∧
      mapGet (mapSet [("1", entryAt 0)] "1" { entryAt 0 with lastAccessed := 5 }) "1" =
        some { entryAt 0 with lastAccessed := 5 } ∧
      StatsCache.has 5 "1" [("1", entryAt 0)] = (true, [("1", entryAt 0)])) :=
  ⟨(c2_cache_get_has_ttl [("1", entryAt 0)] "1" 86400001 (entryAt 0) (by decide)).1 (by decide),
   (c2_cache_get_has_ttl [("1", entryAt 0)] "1" 5 (entryAt 0) (by decide)).2 (by decide)⟩


/-! ### C10 -/


theorem mem_keys_mapSet (m : CacheMap) (k x : String) (v : CacheEntry)
    (h : x ∈ (mapSet m k v).map Prod.fst) : x ∈ m.map Prod.fst ∨ x = k := by
  induction m with
  | nil =>
    rw [mapSet] at h
    simp only [List.map_cons, List.map_nil, List.mem_singleton] at h
    exact Or.inr h
  | cons p rest ih =>
    by_cases hp : p.1 = k
    · rw [mapSet, if_pos hp] at h
      simp only [List.map_cons, List.mem_cons] at h ⊢
      rcases h with h | h
      · exact Or.inr h
      · exact Or.inl (Or.inr h)
    · rw [mapSet, if_neg hp] at h
      simp only [List.map_cons, List.mem_cons] at h ⊢
      rcases h with h | h
      · exact Or.inl (Or.inl h)
      · rcases ih h with h2 | h2
        · exact Or.inl (Or.inr h2)
        · exact Or.inr h2

theorem mem_keys_mapDelete (m : CacheMap) (k x : String)
    (h : x ∈ (mapDelete m k).map Prod.fst) : x ∈ m.map Prod.fst := by
  induction m with
  | nil => simp [mapDelete] at h
  | cons p rest ih =>
    by_cases hp : p.1 = k
    · rw [mapDelete, if_pos hp] at h
      simp only [List.map_cons, List.mem_cons]
      exact Or.inr h
    · rw [mapDelete, if_neg hp] at h
      simp only [List.map_cons, List.mem_cons] at h ⊢
      rcases h with h | h
      · exact Or.inl h
      · exact Or.inr (ih h)

theorem keysNodup_mapSet (m : CacheMap) (k : String) (v : CacheEntry)
    (h : keysNodup m) : keysNodup (mapSet m k v) := by
  induction m with
  | nil => simp [mapSet, keysNodup]
  | cons p rest ih =>
    have h' : (p.1 :: rest.map Prod.fst).Nodup := by simpa [keysNodup] using h
    obtain ⟨h1, h2⟩ := List.nodup_cons.mp h'
    by_cases hp : p.1 = k
    · rw [mapSet, if_pos hp]
      have : (k :: rest.map Prod.fst).Nodup := List.nodup_cons.mpr ⟨hp ▸ h1, h2⟩
      simpa [keysNodup] using this
    · rw [mapSet, if_neg hp]
      have hrest := ih (by simpa [keysNodup] using h2)
      have hnot : p.1 ∉ (mapSet rest k v).map Prod.fst := by
        intro hm
        rcases mem_keys_mapSet rest k p.1 v hm with hm2 | hm2
        · exact h1 hm2
        · exact hp hm2
      have : (p.1 :: (mapSet rest k v).map Prod.fst).Nodup :=
        List.nodup_cons.mpr ⟨hnot, by simpa [keysNodup] using hrest⟩
      simpa [keysNodup] using this

theorem keysNodup_mapDelete (m : CacheMap) (k : String)
    (h : keysNodup m) : keysNodup (mapDelete m k) := by
  induction m with
  | nil => simpa [mapDelete] using h
  | cons p rest ih =>
    have h' : (p.1 :: rest.map Prod.fst).Nodup := by simpa [keysNodup] using h
    obtain ⟨h1, h2⟩ := List.nodup_cons.mp h'
    by_cases hp : p.1 = k
    · rw [mapDelete, if_pos hp]
      simpa [keysNodup] using h2
    · rw [mapDelete, if_neg hp]
      have hrest := ih (by simpa [keysNodup] using h2)
      have hnot : p.1 ∉ (mapDelete rest k).map Prod.fst :=
        fun hm => h1 (mem_keys_mapDelete rest k p.1 hm)
      have : (p.1 :: (mapDelete rest k).map Prod.fst).Nodup :=
        List.nodup_cons.mpr ⟨hnot, by simpa [keysNodup] using hrest⟩
      simpa [keysNodup] using this

theorem keysNodup_applyCacheOp (m : CacheMap) (op : CacheOp)
    (h : keysNodup m) : keysNodup (applyCacheOp m op) := by
  cases op with
  | read now id0 =>
    simp only [applyCacheOp, StatsCache.get]
    split
    · exact h
    · split
      · exact keysNodup_mapDelete m id0 h
      · exact keysNodup_mapSet m id0 _ h
  | patch now id0 p =>
    simp only [applyCacheOp, StatsCache.update]
    split
    · exact h
    · exact keysNodup_mapSet m id0 _ h

theorem applyCacheOp_timestamp (m : CacheMap) (op : CacheOp) (id : String) (e' : CacheEntry)
    (hnd : keysNodup m) (h : mapGet (applyCacheOp m op) id = some e') :
    ∃ e, mapGet m id = some e ∧ e'.timestamp = e.timestamp := by
  cases op with
  | read now id0 =>
    simp only [applyCacheOp, StatsCache.get] at h
    split at h
    · exact ⟨e', h, rfl⟩
    · rename_i f hq
      split at h
      · by_cases hid : id = id0
        · subst hid
          rw [mapGet_mapDelete_self m id hnd] at h
          exact absurd h (by simp)
        · rw [mapGet_mapDelete_ne m id0 id hid] at h
          exact ⟨e', h, rfl⟩
      · by_cases hid : id = id0
        · subst hid
          rw [mapGet_mapSet_self] at h
          cases h
          exact ⟨f, hq, rfl⟩
        · rw [mapGet_mapSet_ne m id0 id _ hid] at h
          exact ⟨e', h, rfl⟩
  | patch now id0 p =>
    simp only [applyCacheOp, StatsCache.update] at h
    split at h
    · exact ⟨e', h, rfl⟩
    · rename_i f hq
      by_cases hid : id = id0
      · subst hid
        rw [mapGet_mapSet_self] at h
        cases h
        exact ⟨f, hq, rfl⟩
      · rw [mapGet_mapSet_ne m id0 id _ hid] at h
        exact ⟨e', h, rfl⟩



theorem applyCacheOps_timestamp :
    ∀ (ops : List CacheOp) (m : CacheMap) (id : String) (e' : CacheEntry),
      keysNodup m → mapGet (applyCacheOps m ops) id = some e' →
      ∃ e, mapGet m id = some e ∧ e'.timestamp = e.timestamp := by
  intro ops
  induction ops with
  | nil =>
    intro m id e' hnd h
    exact ⟨e', h, rfl⟩
  | cons op rest ih =>
    intro m id e' hnd h
    have hstep := ih (applyCacheOp m op) id e' (keysNodup_applyCacheOp m op hnd)
      (by simpa [applyCacheOps] using h)
    obtain ⟨e1, he1, hts1⟩ := hstep
    obtain ⟨e0, he0, hts0⟩ := applyCacheOp_timestamp m op id e1 hnd he1
    exact ⟨e0, he0, hts1.trans hts0⟩

/-- C10: no sequence of `get` reads and partial `update`s ever changes an
entry's `timestamp` — if an id is present afterwards, it was present
before with the same `timestamp`, so TTL expiry is fixed by the most
recent `set` alone.  Reads and updates do protect an entry against LRU
eviction: a fresh hit rewrites `lastAccessed` to the read time, `update`
rewrites it to the update time, and `set` stamps both fields. -/
theorem c10_reads_updates_never_refresh_timestamp :
    (∀ (ops : List CacheOp) (m : CacheMap) (id : String) (e' : CacheEntry),
      keysNodup m → mapGet (applyCacheOps m ops) id = some e' →
      ∃ e, mapGet m id = some e ∧ e'.timestamp = e.timestamp) ∧
    (∀ (now : Int) (id : String) (m : CacheMap) (e : CacheEntry),
      mapGet m id = some e → now - e.timestamp ≤ CACHE_TTL_MS →
      mapGet ((StatsCache.get now id m).2) id = some { e with lastAccessed := now }) ∧
    (∀ (now : Int) (id : String) (p : PinDataPatch) (m : CacheMap) (e : CacheEntry),
      mapGet m id = some e →
      mapGet (StatsCache.update now id p m) id =
        some { data := applyPatch e.data p, timestamp := e.timestamp, lastAccessed := now }) ∧
    (∀ (now : Int) (id : String) (d : PinData) (m : CacheMap),
      mapGet (mapSet m id { data := d, timestamp := now, lastAccessed := now }) id =
        some { data := d, timestamp := now, lastAccessed := now }) := by
  refine ⟨applyCacheOps_timestamp, ?_, ?_, ?_⟩
  · intro now id m e h hfresh
    have hnot : ¬(now - e.timestamp > CACHE_TTL_MS) := not_lt.mpr hfresh
    simp only [StatsCache.get, h, if_neg hnot]
    exact mapGet_mapSet_self m id _
  · intro now id p m e h
    simp only [StatsCache.update, h]
    exact mapGet_mapSet_self m id _
  · intro now id d m
    exact mapGet_mapSet_self m id _

/-- Witness for C10: a read at 5 then an empty-patch update at 6 on a
one-entry cache leaves the entry's timestamp at 0. -/
theorem c10_witness :
    (∃ e, mapGet [("1", entryAt 0)] "1" = some e ∧
      ({ data := applyPatch (entryAt 0).data {}, timestamp := 0, lastAccessed := 6 } :
        CacheEntry).timestamp = e.timestamp) ∧
    mapGet ((StatsCache.get 5 "1" [("1", entryAt 0)]).2) "1" =
      some { entryAt 0 with lastAccessed := 5 } ∧
    mapGet (StatsCache.update 6 "1" {} [("1", entryAt 0)]) "1" =
      some { data := applyPatch (entryAt 0).data {}, timestamp := (entryAt 0).timestamp,
             lastAccessed := 6 } :=
  ⟨c10_reads_updates_never_refresh_timestamp.1 [.read 5 "1", .patch 6 "1" {}]
      [("1", entryAt 0)] "1" _ (by unfold keysNodup; decide) (by decide),
   c10_reads_updates_never_refresh_timestamp.2.1 5 "1" [("1", entryAt 0)] (entryAt 0)
      (by decide) (by decide),
   c10_reads_updates_never_refresh_timestamp.2.2.1 6 "1" {} [("1", entryAt 0)] (entryAt 0)
      (by decide)⟩


/-! ### C7 -/


theorem requestStatsFetch_awaiting (id : String) (st : ConsumerSt)
    (h1 : st.injectorReady = false) (h2 : st.pendingRequests = []) :
    requestStatsFetch noValidCache id st =
      { st with pendingFetchRequests :=
          (if st.pendingFetchRequests.contains id then st.pendingFetchRequests
           else st.pendingFetchRequests ++ [id]) } := by
  obtain ⟨r, bfr, pr, fq, tp, fu, sn⟩ := st
  simp only at h1 h2
  subst h1; subst h2
  by_cases hc : id ∈ bfr
  · simp [requestStatsFetch, noValidCache, hc]
  · simp [requestStatsFetch, noValidCache, hc]

theorem requestAll_awaiting :
    ∀ (ids : List String) (st : ConsumerSt),
      st.injectorReady = false → st.pendingRequests = [] →
      requestAll noValidCache ids st =
        { st with pendingFetchRequests :=
            (ids.foldl (fun acc id => if acc.contains id then acc else acc ++ [id])
              st.pendingFetchRequests) } := by
  intro ids
  induction ids with
  | nil => intro st h1 h2; simp [requestAll]
  | cons id rest ih =>
    intro st h1 h2
    have hstep := requestStatsFetch_awaiting id st h1 h2
    have hunf : requestAll noValidCache (id :: rest) st =
        requestAll noValidCache rest (requestStatsFetch noValidCache id st) := by
      simp [requestAll]
    have hres := ih
      { st with pendingFetchRequests :=
          (if st.pendingFetchRequests.contains id then st.pendingFetchRequests
           else st.pendingFetchRequests ++ [id]) } h1 h2
    rw [hunf, hstep, hres]
    simp [List.foldl_cons]

theorem requestStatsFetch_ready_fresh (id : String) (st : ConsumerSt)
    (h1 : st.injectorReady = true) (h2 : id ∉ st.pendingRequests) :
    requestStatsFetch noValidCache id st =
      { st with pendingRequests := st.pendingRequests ++ [id],
                fetchQueue := st.fetchQueue ++ [id],
                timerPending := true } := by
  obtain ⟨r, bfr, pr, fq, tp, fu, sn⟩ := st
  simp only at h1 h2
  subst h1
  simp [requestStatsFetch, noValidCache, h2]

theorem requestAll_ready_fresh :
    ∀ (ids : List String) (st : ConsumerSt),
      st.injectorReady = true → ids.Nodup → (∀ id ∈ ids, id ∉ st.pendingRequests) →
      ids ≠ [] →
      requestAll noValidCache ids st =
        { st with pendingRequests := st.pendingRequests ++ ids,
                  fetchQueue := st.fetchQueue ++ ids,
                  timerPending := true } := by
  intro ids
  induction ids with
  | nil => intro st _ _ _ hne; exact absurd rfl hne
  | cons id rest ih =>
    intro st h1 hnd hfresh _
    have hstep := requestStatsFetch_ready_fresh id st h1 (hfresh id (by simp))
    have hunf : requestAll noValidCache (id :: rest) st =
        requestAll noValidCache rest (requestStatsFetch noValidCache id st) := by
      simp [requestAll]
    by_cases hrest : rest = []
    · subst hrest
      rw [hunf, hstep]
      simp [requestAll]
    · have hfresh' : ∀ x ∈ rest, x ∉ st.pendingRequests ++ [id] := by
        intro x hx
        simp only [List.mem_append, List.mem_singleton]
        rintro (hmem | hmem)
        · exact hfresh x (by simp [hx]) hmem
        · exact (List.nodup_cons.mp hnd).1 (hmem ▸ hx)
      have hres := ih
        { st with pendingRequests := st.pendingRequests ++ [id],
                  fetchQueue := st.fetchQueue ++ [id],
                  timerPending := true }
        h1 (List.nodup_cons.mp hnd).2 hfresh' hrest
      rw [hunf, hstep, hres]
      simp



theorem backlogInsert_ne_nil (acc : List String) (id : String) :
    (if acc.contains id then acc else acc ++ [id]) ≠ [] := by
  split
  · rename_i hc
    intro h
    subst h
    simp at hc
  · simp

theorem foldl_backlogInsert_ne_nil :
    ∀ (ids acc : List String), acc ≠ [] →
      ids.foldl (fun acc id => if acc.contains id then acc else acc ++ [id]) acc ≠ [] := by
  intro ids
  induction ids with
  | nil => intro acc h; simpa using h
  | cons id rest ih =>
    intro acc h
    rw [List.foldl_cons]
    exact ih _ (backlogInsert_ne_nil acc id)

theorem dedupFirst_ne_nil (ids : List String) (h : ids ≠ []) : dedupFirst ids ≠ [] := by
  cases ids with
  | nil => exact absurd rfl h
  | cons id rest =>
    rw [dedupFirst, List.foldl_cons]
    exact foldl_backlogInsert_ne_nil rest _ (by simp)

theorem foldl_backlogInsert_nodup :
    ∀ (ids acc : List String), acc.Nodup →
      (ids.foldl (fun acc id => if acc.contains id then acc else acc ++ [id]) acc).Nodup := by
  intro ids
  induction ids with
  | nil => intro acc h; simpa using h
  | cons id rest ih =>
    intro acc h
    rw [List.foldl_cons]
    refine ih _ ?_
    split
    · exact h
    · rename_i hc
      have hc' : id ∉ acc := by simpa using hc
      rw [List.nodup_append]
      refine ⟨h, by simp, ?_⟩
      intro x hx
      simp only [List.mem_singleton]
      intro hxe
      exact hc' (hxe ▸ hx)

theorem dedupFirst_nodup (ids : List String) : (dedupFirst ids).Nodup :=
  foldl_backlogInsert_nodup ids [] (by simp)

theorem onInjectorReady_flush (bfr : List String) (hne : bfr ≠ []) (hnd : bfr.Nodup) :
    onInjectorReady noValidCache
      { injectorReady := false, pendingFetchRequests := bfr, pendingRequests := [],
        fetchQueue := [], timerPending := false, followUpPending := false, sent := [] } =
      { injectorReady := true, pendingFetchRequests := [], pendingRequests := bfr,
        fetchQueue := bfr, timerPending := true, followUpPending := false, sent := [] } := by
  rw [onInjectorReady]
  simp only [List.isEmpty_iff]
  rw [if_neg hne]
  have := requestAll_ready_fresh bfr
    { injectorReady := true, pendingFetchRequests := [], pendingRequests := [],
      fetchQueue := [], timerPending := false, followUpPending := false, sent := [] }
    rfl hnd (by simp) hne
  simpa [requestAll] using this



/-- C7 (amended): every record-fetch request the consumer issues for an
uncached id before the ready signal is appended to the backlog
(deduplicated, first-requested order) rather than dropped, and no message
is sent; once ready arrives, the held ids are delivered by the debounce
flush as exactly one batched fetch-stats request containing the held ids
in first-requested order — provided at most `MAX_BATCH_SIZE` (20)
distinct ids are held.  (With more than 20 held ids only the first 20 go
out in that flush; see the counterexample.) -/
theorem c7_preready_requests_held_and_flushed :
    (∀ ids : List String,
      (requestAll noValidCache ids initialConsumer).pendingFetchRequests = dedupFirst ids ∧
      (requestAll noValidCache ids initialConsumer).sent = [] ∧
      (requestAll noValidCache ids initialConsumer).injectorReady = false) ∧
    (∀ ids : List String, ids ≠ [] → (dedupFirst ids).length ≤ MAX_BATCH_SIZE →
      (timerFire (onInjectorReady noValidCache
        (requestAll noValidCache ids initialConsumer))).sent = [dedupFirst ids]) := by
  have hheld : ∀ ids : List String,
      requestAll noValidCache ids initialConsumer =
        { injectorReady := false, pendingFetchRequests := dedupFirst ids,
          pendingRequests := [], fetchQueue := [], timerPending := false,
          followUpPending := false, sent := [] } := by
    intro ids
    have := requestAll_awaiting ids initialConsumer rfl rfl
    simpa [initialConsumer, dedupFirst] using this
  constructor
  · intro ids
    rw [hheld ids]
    exact ⟨rfl, rfl, rfl⟩
  · intro ids hne hlen
    rw [hheld ids]
    rw [onInjectorReady_flush (dedupFirst ids) (dedupFirst_ne_nil ids hne) (dedupFirst_nodup ids)]
    rw [timerFire]
    simp only [Bool.not_true, List.isEmpty_iff]
    rw [if_neg (by simp), if_neg (dedupFirst_ne_nil ids hne)]
    simp [List.take_of_length_le hlen]

/-- Witness for C7: three pre-ready requests with one duplicate flush as
the single batch of the two distinct held ids. -/
theorem c7_preready_requests_held_and_flushed_witness :
    (timerFire (onInjectorReady noValidCache
      (requestAll noValidCache ["5", "6", "5"] initialConsumer))).sent = [dedupFirst ["5", "6", "5"]] :=
  c7_preready_requests_held_and_flushed.2 ["5", "6", "5"] (by decide)
    (by unfold dedupFirst MAX_BATCH_SIZE; decide)

/-- C7 counterexample: with 21 distinct ids held before ready, the flush
sends exactly one batch of the first 20; the 21st id is in no sent batch,
and after the follow-up timeout fires (its `requestStatsFetch` returns at
the pending-id guard) no timer is armed — the remainder is stranded in
the queue, so the held ids are not all delivered. -/
theorem c7_counterexample_21_ids :
    run21.sent = [ids21.take 20] ∧
    "21" ∈ ids21 ∧
    (∀ b ∈ run21.sent, "21" ∉ b) ∧
    run21.timerPending = false ∧
    run21.followUpPending = false ∧
    run21.fetchQueue = ["21"] := by decide


/-! ### C8 -/


theorem fetchedHas_iff (f : FetchedPins) (x : String) :
    fetchedHas f x = true ↔ ∃ p ∈ f, p.1 = x := by
  rw [fetchedHas, List.any_eq_true]
  simp

theorem fetchedHas_fetchedDelete_self (f : FetchedPins) (id : String) :
    fetchedHas (fetchedDelete f id) id = false := by
  rw [fetchedHas, fetchedDelete]
  rw [List.any_eq_false]
  intro p hp
  have := List.of_mem_filter hp
  simpa using this

theorem fetchedHas_fetchedDelete_mono (f : FetchedPins) (id x : String)
    (h : fetchedHas (fetchedDelete f id) x = true) : fetchedHas f x = true := by
  rw [fetchedHas_iff] at h ⊢
  obtain ⟨p, hp, hpx⟩ := h
  exact ⟨p, List.mem_of_mem_filter hp, hpx⟩

theorem fetchedHas_fetchedSet_iff (f : FetchedPins) (id x : String) (t : Int) :
    fetchedHas (fetchedSet f id t) x = true ↔ (fetchedHas f x = true ∨ x = id) := by
  rw [fetchedSet]
  split
  case isTrue hhas =>
    rw [fetchedHas_iff, fetchedHas_iff]
    constructor
    · rintro ⟨p, hp, hpx⟩
      obtain ⟨q, hq, hqe⟩ := List.mem_map.mp hp
      by_cases hq1 : q.1 = id
      · rw [if_pos (by simpa using hq1)] at hqe
        rw [← hqe] at hpx
        exact Or.inr hpx.symm
      · rw [if_neg (by simpa using hq1)] at hqe
        exact Or.inl ⟨q, hq, hqe ▸ hpx⟩
    · rintro (⟨p, hp, hpx⟩ | hxid)
      · by_cases hp1 : p.1 = id
        · refine ⟨(id, t), List.mem_map.mpr ⟨p, hp, by rw [if_pos (by simpa using hp1)]⟩, ?_⟩
          rw [← hpx, hp1]
        · exact ⟨p, List.mem_map.mpr ⟨p, hp, by rw [if_neg (by simpa using hp1)]⟩, hpx⟩
      · rw [fetchedHas_iff] at hhas
        obtain ⟨q, hq, hq1⟩ := hhas
        exact ⟨(id, t), List.mem_map.mpr ⟨q, hq, by rw [if_pos (by simpa using hq1)]⟩,
          hxid.symm⟩
  case isFalse hhas =>
    rw [fetchedHas_iff, fetchedHas_iff]
    constructor
    · rintro ⟨p, hp, hpx⟩
      rcases List.mem_append.mp hp with hp2 | hp2
      · exact Or.inl ⟨p, hp2, hpx⟩
      · simp only [List.mem_singleton] at hp2
        subst hp2
        exact Or.inr hpx.symm
    · rintro (⟨p, hp, hpx⟩ | hxid)
      · exact ⟨p, List.mem_append_left _ hp, hpx⟩
      · exact ⟨(id, t), List.mem_append_right _ (by simp), hxid.symm⟩



theorem windowStart_has (now : Int) :
    ∀ (batch : List String) (f : FetchedPins) (x : String),
      fetchedHas (windowStart now batch f).2 x = true ↔
        (fetchedHas f x = true ∨ x ∈ batch) := by
  intro batch
  induction batch with
  | nil => intro f x; simp [windowStart]
  | cons id rest ih =>
    intro f x
    by_cases hhas : fetchedHas f id = true
    · rw [windowStart, if_pos hhas]
      rw [ih f x]
      constructor
      · rintro (h | h)
        · exact Or.inl h
        · exact Or.inr (List.mem_cons_of_mem _ h)
      · rintro (h | h)
        · exact Or.inl h
        · rcases List.mem_cons.mp h with h | h
          · exact Or.inl (h ▸ hhas)
          · exact Or.inr h
    · rw [windowStart, if_neg hhas]
      have := ih (fetchedSet f id now) x
      rw [fetchedHas_fetchedSet_iff] at this
      constructor
      · intro h
        rcases this.mp h with (h2 | h2) | h2
        · exact Or.inl h2
        · exact Or.inr (h2 ▸ List.mem_cons_self _ _)
        · exact Or.inr (List.mem_cons_of_mem _ h2)
      · intro h
        apply this.mpr
        rcases h with h | h
        · exact Or.inl (Or.inl h)
        · rcases List.mem_cons.mp h with h | h
          · exact Or.inl (Or.inr h)
          · exact Or.inr h

theorem windowStart_issued_of_fresh (now : Int) :
    ∀ (batch : List String) (f : FetchedPins),
      batch.Nodup → (∀ id ∈ batch, fetchedHas f id = false) →
      (windowStart now batch f).1 = batch := by
  intro batch
  induction batch with
  | nil => intro f _ _; simp [windowStart]
  | cons id rest ih =>
    intro f hnd hfresh
    have hhas : ¬(fetchedHas f id = true) := by
      rw [hfresh id (List.mem_cons_self _ _)]
      simp
    rw [windowStart, if_neg hhas]
    have hfresh' : ∀ x ∈ rest, fetchedHas (fetchedSet f id now) x = false := by
      intro x hx
      by_cases h2 : fetchedHas (fetchedSet f id now) x = true
      · rcases (fetchedHas_fetchedSet_iff f id x now).mp h2 with h3 | h3
        · rw [hfresh x (List.mem_cons_of_mem _ hx)] at h3
          exact absurd h3 (by simp)
        · exact absurd (h3 ▸ hx) (List.nodup_cons.mp hnd).1
      · simpa using h2
    have := ih (fetchedSet f id now) (List.nodup_cons.mp hnd).2 hfresh'
    simp [this]

theorem settleOne_fst (env : String → FetchOutcome) (f : FetchedPins) (id : String) :
    (settleOne env f id).1 = isRateLimited (env id) := by
  cases henv : env id <;> simp [settleOne, isRateLimited, henv]

theorem settleWindow_fst (env : String → FetchOutcome) :
    ∀ (issued : List String) (f : FetchedPins),
      (settleWindow env issued f).1 = issued.any (fun id => isRateLimited (env id)) := by
  intro issued
  induction issued with
  | nil => intro f; simp [settleWindow]
  | cons id rest ih =>
    intro f
    rw [settleWindow]
    simp only [List.any_cons]
    rw [settleOne_fst, ih]

theorem settleOne_snd_mono (env : String → FetchOutcome) (f : FetchedPins) (id x : String)
    (h : fetchedHas (settleOne env f id).2 x = true) : fetchedHas f x = true := by
  cases henv : env id <;> simp only [settleOne, henv] at h
  · exact fetchedHas_fetchedDelete_mono f id x h
  · exact h
  · exact h
  · exact fetchedHas_fetchedDelete_mono f id x h

theorem settleWindow_snd_mono (env : String → FetchOutcome) :
    ∀ (issued : List String) (f : FetchedPins) (x : String),
      fetchedHas (settleWindow env issued f).2 x = true → fetchedHas f x = true := by
  intro issued
  induction issued with
  | nil => intro f x h; simpa [settleWindow] using h
  | cons id rest ih =>
    intro f x h
    rw [settleWindow] at h
    exact settleOne_snd_mono env f id x (ih _ _ h)

theorem settleWindow_429_removed (env : String → FetchOutcome) :
    ∀ (issued : List String) (f : FetchedPins) (x : String),
      env x = .status429 → x ∈ issued →
      fetchedHas (settleWindow env issued f).2 x = false := by
  intro issued
  induction issued with
  | nil => intro f x _ hm; simp at hm
  | cons id rest ih =>
    intro f x henv hm
    rw [settleWindow]
    by_cases hx : x = id
    · subst hx
      have hdel : (settleOne env f x).2 = fetchedDelete f x := by
        rw [settleOne, henv]
      by_cases h2 : fetchedHas (settleWindow env rest (settleOne env f x).2).2 x = true
      · have := settleWindow_snd_mono env rest _ x h2
        rw [hdel, fetchedHas_fetchedDelete_self] at this
        exact absurd this (by simp)
      · simpa using h2
    · exact ih _ x henv (List.mem_cons.mp hm |>.resolve_left hx)



theorem chunksOf_nil : chunksOf (α := String) n [] = [] := by
  rw [chunksOf]

theorem chunksOf_cons (n : Nat) (hn : n ≠ 0) (a : String) (tl : List String) :
    chunksOf n (a :: tl) = (a :: tl).take n :: chunksOf n ((a :: tl).drop n) := by
  rw [chunksOf]
  rw [if_neg hn]

theorem chunksOf_eq_nil_iff (n : Nat) (l : List String) :
    chunksOf n l = [] ↔ l = [] := by
  cases l with
  | nil => simp [chunksOf_nil]
  | cons a tl =>
    rw [chunksOf]
    constructor
    · intro h
      by_cases hn : n = 0
      · rw [if_pos hn] at h
        exact absurd h (by simp)
      · rw [if_neg hn] at h
        exact absurd h (by simp)
    · intro h
      exact absurd h (by simp)

theorem chunksOf_mem_length_le :
    ∀ (N n : Nat) (l w : List String), l.length ≤ N → n ≠ 0 →
      w ∈ chunksOf n l → w.length ≤ n := by
  intro N
  induction N with
  | zero =>
    intro n l w hl hn hw
    have hnil : l = [] := List.eq_nil_of_length_eq_zero (Nat.le_zero.mp hl)
    subst hnil
    rw [chunksOf_nil] at hw
    simp at hw
  | succ N ih =>
    intro n l w hl hn hw
    cases l with
    | nil => rw [chunksOf_nil] at hw; simp at hw
    | cons a tl =>
      rw [chunksOf_cons n hn] at hw
      rcases List.mem_cons.mp hw with hw | hw
      · subst hw
        simp [List.length_take_le]
      · refine ih n _ w ?_ hn hw
        simp only [List.length_drop, List.length_cons] at hl ⊢
        omega

theorem batchLoop_nil (env : String → FetchOutcome) (now : Int) (f : FetchedPins) :
    batchLoop env now [] f = ([], f) := by
  rw [batchLoop]

theorem batchLoop_cons (env : String → FetchOutcome) (now : Int) (a : String)
    (tl : List String) (f : FetchedPins) :
    batchLoop env now (a :: tl) f =
      (BatchEvent.window ((a :: tl).take CONCURRENT_LIMIT) ::
        (if (settleWindow env (windowStart now ((a :: tl).take CONCURRENT_LIMIT) f).1
              (windowStart now ((a :: tl).take CONCURRENT_LIMIT) f).2).1 then
          [BatchEvent.sleep RATE_LIMIT_BACKOFF_MS]
        else if ((a :: tl).drop CONCURRENT_LIMIT).isEmpty then []
        else [BatchEvent.sleep BATCH_DELAY_MS]) ++
        (batchLoop env now ((a :: tl).drop CONCURRENT_LIMIT)
          (settleWindow env (windowStart now ((a :: tl).take CONCURRENT_LIMIT) f).1
            (windowStart now ((a :: tl).take CONCURRENT_LIMIT) f).2).2).1,
       (batchLoop env now ((a :: tl).drop CONCURRENT_LIMIT)
          (settleWindow env (windowStart now ((a :: tl).take CONCURRENT_LIMIT) f).1
            (windowStart now ((a :: tl).take CONCURRENT_LIMIT) f).2).2).2) := by
  rw [batchLoop]



theorem batchLoop_spec (env : String → FetchOutcome) (now : Int) :
    ∀ (n : Nat) (ids : List String) (f : FetchedPins), ids.length ≤ n →
      ids.Nodup → (∀ id ∈ ids, fetchedHas f id = false) →
      (batchLoop env now ids f).1 = weaveTrace env (chunksOf CONCURRENT_LIMIT ids) ∧
      (∀ x, fetchedHas (batchLoop env now ids f).2 x = true →
        fetchedHas f x = true ∨ x ∈ ids) ∧
      (∀ id ∈ ids, env id = .status429 →
        fetchedHas (batchLoop env now ids f).2 id = false) := by
  intro n
  induction n with
  | zero =>
    intro ids f hl hnd hfresh
    have hnil : ids = [] := List.eq_nil_of_length_eq_zero (Nat.le_zero.mp hl)
    subst hnil
    rw [batchLoop_nil]
    refine ⟨by rw [chunksOf_nil, weaveTrace], fun x h => Or.inl h, fun id hm => by simp at hm⟩
  | succ n ih =>
    intro ids f hl hnd hfresh
    cases ids with
    | nil =>
      rw [batchLoop_nil]
      refine ⟨by rw [chunksOf_nil, weaveTrace], fun x h => Or.inl h, fun id hm => by simp at hm⟩
    | cons a tl =>
      set ids := a :: tl with hids
      set batch := ids.take CONCURRENT_LIMIT with hbatch
      set rest := ids.drop CONCURRENT_LIMIT with hrest
      -- sublist facts
      have hsplit : batch ++ rest = ids := List.take_append_drop _ ids
      have hnd_split : (batch ++ rest).Nodup := by rw [hsplit]; exact hnd
      have hnd_batch : batch.Nodup := (List.nodup_append.mp hnd_split).1
      have hnd_rest : rest.Nodup := (List.nodup_append.mp hnd_split).2.1
      have hdisj : ∀ x ∈ batch, x ∉ rest := by
        intro x hx hr
        exact (List.nodup_append.mp hnd_split).2.2 hx hr
      have hmem_batch : ∀ x ∈ batch, x ∈ ids := fun x hx => hsplit ▸ List.mem_append_left _ hx
      have hmem_rest : ∀ x ∈ rest, x ∈ ids := fun x hx => hsplit ▸ List.mem_append_right _ hx
      have hfresh_batch : ∀ id ∈ batch, fetchedHas f id = false :=
        fun id hid => hfresh id (hmem_batch id hid)
      -- window start
      have hissued : (windowStart now batch f).1 = batch :=
        windowStart_issued_of_fresh now batch f hnd_batch hfresh_batch
      have hrl : (settleWindow env (windowStart now batch f).1 (windowStart now batch f).2).1 =
          batch.any (fun id => isRateLimited (env id)) := by
        rw [hissued, settleWindow_fst]
      -- post-window state
      set f2 := (settleWindow env (windowStart now batch f).1 (windowStart now batch f).2).2
        with hf2
      have hf2mono : ∀ x, fetchedHas f2 x = true → fetchedHas f x = true ∨ x ∈ batch := by
        intro x hx
        have := settleWindow_snd_mono env _ _ x hx
        exact (windowStart_has now batch f x).mp this
      have hfresh_rest : ∀ x ∈ rest, fetchedHas f2 x = false := by
        intro x hx
        by_cases h2 : fetchedHas f2 x = true
        · rcases hf2mono x h2 with h3 | h3
          · rw [hfresh x (hmem_rest x hx)] at h3
            exact absurd h3 (by simp)
          · exact absurd hx (hdisj x h3)
        · simpa using h2
      have hlen_rest : rest.length ≤ n := by
        rw [hrest, hids]
        simp only [List.length_drop, List.length_cons]
        rw [hids] at hl
        simp only [List.length_cons] at hl
        have : CONCURRENT_LIMIT = 20 := rfl
        omega
      obtain ⟨ihtrace, ihmono, ih429⟩ := ih rest f2 hlen_rest hnd_rest hfresh_rest
      have h429_batch : ∀ id ∈ batch, env id = .status429 → fetchedHas f2 id = false := by
        intro id hid henv
        rw [hf2, hissued]
        exact settleWindow_429_removed env batch _ id henv hid
      refine ⟨?_, ?_, ?_⟩
      · -- trace equality
        rw [batchLoop_cons]
        rw [chunksOf_cons CONCURRENT_LIMIT (by decide) a tl]
        simp only [← hids, ← hbatch, ← hrest]
        rw [hrl]
        by_cases hre : rest = []
        · rw [hre, chunksOf_nil, batchLoop_nil]
          cases hany : batch.any (fun id => isRateLimited (env id)) <;>
            simp [weaveTrace, hany]
        · have hch : chunksOf CONCURRENT_LIMIT rest ≠ [] := by
            rw [Ne, chunksOf_eq_nil_iff]
            exact hre
          obtain ⟨w, ws, hwws⟩ := List.exists_cons_of_ne_nil hch
          rw [ihtrace, hwws]
          have hempty : rest.isEmpty = false := by
            simpa using hre
          cases hany : batch.any (fun id => isRateLimited (env id)) <;>
            simp [weaveTrace, hany, hempty]
      · intro x hx
        rw [batchLoop_cons] at hx
        simp only [← hids, ← hbatch, ← hrest, ← hf2] at hx
        rcases ihmono x hx with h2 | h2
        · rcases hf2mono x h2 with h3 | h3
          · exact Or.inl h3
          · exact Or.inr (hmem_batch x h3)
        · exact Or.inr (hmem_rest x h2)
      · intro id hid henv
        rw [batchLoop_cons]
        simp only [← hids, ← hbatch, ← hrest, ← hf2]
        rcases List.mem_append.mp (hsplit ▸ hid) with hid2 | hid2
        · by_cases hfin : fetchedHas (batchLoop env now rest f2).2 id = true
          · rcases ihmono id hfin with h2 | h2
            · rw [h429_batch id hid2 henv] at h2
              exact absurd h2 (by simp)
            · exact absurd h2 (hdisj id hid2)
          · simpa using hfin
        · exact ih429 id hid2 henv




/-- C8: for distinct ids none of which is already in the tried set,
`fetchBatchParallel` produces exactly the windows `chunksOf 20 ids` in
order with exactly one wait between consecutive windows — the 1000ms
rate-limit backoff when some id of the window was answered 429, else the
100ms inter-window delay (the trace shape also encodes the window
barrier: window N+1 appears only after window N settles and its wait
elapses); each window holds at most 20 ids; and an id answered 429 is
absent from the final tried set, so a later call issues it again. -/
theorem c8_fetch_batch_windows_and_backoff :
    ∀ (env : String → FetchOutcome) (now : Int) (ids : List String) (f : FetchedPins),
      ids.Nodup → (∀ id ∈ ids, fetchedHas f id = false) →
      (fetchBatchParallel env now ids f).1 =
        weaveTrace env (chunksOf CONCURRENT_LIMIT ids) ∧
      (∀ w ∈ chunksOf CONCURRENT_LIMIT ids, w.length ≤ CONCURRENT_LIMIT) ∧
      (∀ id ∈ ids, env id = .status429 →
        fetchedHas (fetchBatchParallel env now ids f).2 id = false ∧
        (windowStart now [id] (fetchBatchParallel env now ids f).2).1 = [id]) := by
  intro env now ids f hnd hfresh
  obtain ⟨ht, hm, h4⟩ := batchLoop_spec env now ids.length ids f le_rfl hnd hfresh
  simp only [fetchBatchParallel]
  refine ⟨ht, ?_, ?_⟩
  · intro w hw
    exact chunksOf_mem_length_le ids.length CONCURRENT_LIMIT ids w le_rfl (by decide) hw
  · intro id hid henv
    have hfin := h4 id hid henv
    refine ⟨hfin, ?_⟩
    rw [windowStart, if_neg (by rw [hfin]; simp)]
    simp [windowStart]

/-- Witness for C8: 21 distinct ids (two windows) against a service that
rate-limits id "6". -/
theorem c8_fetch_batch_windows_and_backoff_witness :
    (fetchBatchParallel env429 0 ids21 []).1 =
      weaveTrace env429 (chunksOf CONCURRENT_LIMIT ids21) ∧
    (∀ w ∈ chunksOf CONCURRENT_LIMIT ids21, w.length ≤ CONCURRENT_LIMIT) ∧
    (∀ id ∈ ids21, env429 id = .status429 →
      fetchedHas (fetchBatchParallel env429 0 ids21 []).2 id = false ∧
      (windowStart 0 [id] (fetchBatchParallel env429 0 ids21 []).2).1 = [id]) :=
  c8_fetch_batch_windows_and_backoff env429 0 ids21 [] (by decide) (by decide)


/-! ### C3 -/


theorem mem_mapDelete_iff (k : String) :
    ∀ (m : CacheMap), keysNodup m → ∀ p : String × CacheEntry,
      (p ∈ mapDelete m k ↔ p ∈ m ∧ p.1 ≠ k) := by
  intro m
  induction m with
  | nil => intro _ p; simp [mapDelete]
  | cons q rest ih =>
    intro hnd p
    have hq : (q.1 :: rest.map Prod.fst).Nodup := by simpa [keysNodup] using hnd
    obtain ⟨hq1, hq2⟩ := List.nodup_cons.mp hq
    have ihp := ih (by simpa [keysNodup] using hq2) p
    by_cases hqk : q.1 = k
    · rw [mapDelete, if_pos hqk]
      constructor
      · intro hp
        refine ⟨List.mem_cons_of_mem _ hp, ?_⟩
        intro hpk
        exact hq1 (hqk ▸ hpk ▸ List.mem_map_of_mem Prod.fst hp)
      · rintro ⟨hp, hpk⟩
        rcases List.mem_cons.mp hp with hp | hp
        · exact absurd (hp ▸ hqk) hpk
        · exact hp
    · rw [mapDelete, if_neg hqk]
      constructor
      · intro hp
        rcases List.mem_cons.mp hp with hp | hp
        · exact ⟨hp ▸ List.mem_cons_self _ _, hp ▸ hqk⟩
        · obtain ⟨h1, h2⟩ := ihp.mp hp
          exact ⟨List.mem_cons_of_mem _ h1, h2⟩
      · rintro ⟨hp, hpk⟩
        rcases List.mem_cons.mp hp with hp | hp
        · exact hp ▸ List.mem_cons_self _ _
        · exact List.mem_cons_of_mem _ (ihp.mpr ⟨hp, hpk⟩)

theorem mem_foldl_mapDelete :
    ∀ (ks : List String) (m : CacheMap), keysNodup m → ∀ p : String × CacheEntry,
      (p ∈ ks.foldl mapDelete m ↔ p ∈ m ∧ p.1 ∉ ks) := by
  intro ks
  induction ks with
  | nil => intro m _ p; simp
  | cons k ks' ih =>
    intro m hnd p
    rw [List.foldl_cons]
    rw [ih (mapDelete m k) (keysNodup_mapDelete m k hnd) p]
    rw [mem_mapDelete_iff k m hnd p]
    constructor
    · rintro ⟨⟨h1, h2⟩, h3⟩
      refine ⟨h1, ?_⟩
      intro hmem
      rcases List.mem_cons.mp hmem with hh | hh
      · exact h2 hh
      · exact h3 hh
    · rintro ⟨h1, h2⟩
      exact ⟨⟨h1, fun hh => h2 (hh ▸ List.mem_cons_self _ _)⟩,
        fun hh => h2 (List.mem_cons_of_mem _ hh)⟩

theorem length_mapDelete_of_mem (k : String) :
    ∀ (m : CacheMap), k ∈ m.map Prod.fst → (mapDelete m k).length + 1 = m.length := by
  intro m
  induction m with
  | nil => intro h; simp at h
  | cons q rest ih =>
    intro h
    by_cases hqk : q.1 = k
    · rw [mapDelete, if_pos hqk]
      simp
    · rw [mapDelete, if_neg hqk]
      have hk : k ∈ rest.map Prod.fst := by
        rw [List.map_cons] at h
        rcases List.mem_cons.mp h with hh | hh
        · exact absurd hh.symm hqk
        · exact hh
      simp only [List.length_cons]
      rw [← ih hk]

theorem mem_keys_mapDelete_of_ne (k k' : String) (hne : k' ≠ k) :
    ∀ (m : CacheMap), k' ∈ m.map Prod.fst → k' ∈ (mapDelete m k).map Prod.fst := by
  intro m
  induction m with
  | nil => intro h; simp at h
  | cons q rest ih =>
    intro h
    rw [List.map_cons] at h
    by_cases hqk : q.1 = k
    · rw [mapDelete, if_pos hqk]
      rcases List.mem_cons.mp h with hh | hh
      · exact absurd (hh.trans hqk) hne
      · exact hh
    · rw [mapDelete, if_neg hqk]
      rw [List.map_cons]
      rcases List.mem_cons.mp h with hh | hh
      · exact List.mem_cons.mpr (Or.inl hh)
      · exact List.mem_cons.mpr (Or.inr (ih hh))

theorem length_foldl_mapDelete :
    ∀ (ks : List String) (m : CacheMap), keysNodup m → ks.Nodup →
      (∀ k ∈ ks, k ∈ m.map Prod.fst) →
      (ks.foldl mapDelete m).length + ks.length = m.length := by
  intro ks
  induction ks with
  | nil => intro m _ _ _; simp
  | cons k ks' ih =>
    intro m hnd hksnd hsub
    rw [List.foldl_cons]
    have h1 := length_mapDelete_of_mem k m (hsub k (List.mem_cons_self _ _))
    have h2 := ih (mapDelete m k) (keysNodup_mapDelete m k hnd)
      (List.nodup_cons.mp hksnd).2 ?_
    · simp only [List.length_cons]
      omega
    · intro k' hk'
      have hne : k' ≠ k := fun hh => (List.nodup_cons.mp hksnd).1 (hh ▸ hk')
      exact mem_keys_mapDelete_of_ne k k' hne m (hsub k' (List.mem_cons_of_mem _ hk'))

theorem keysNodup_inj (m : CacheMap) (hnd : keysNodup m) :
    ∀ a ∈ m, ∀ b ∈ m, a.1 = b.1 → a = b := by
  induction m with
  | nil => intro a ha; simp at ha
  | cons q rest ih =>
    have hq : (q.1 :: rest.map Prod.fst).Nodup := by simpa [keysNodup] using hnd
    obtain ⟨hq1, hq2⟩ := List.nodup_cons.mp hq
    intro a ha b hb hab
    rcases List.mem_cons.mp ha with ha | ha <;> rcases List.mem_cons.mp hb with hb | hb
    · rw [ha, hb]
    · exact absurd (ha ▸ hab ▸ List.mem_map_of_mem Prod.fst hb) hq1
    · exact absurd (hb ▸ hab.symm ▸ List.mem_map_of_mem Prod.fst ha) hq1
    · exact ih (by simpa [keysNodup] using hq2) a ha b hb hab



theorem byLastAccessed_trans :
    ∀ (a b c : String × CacheEntry), byLastAccessed a b = true → byLastAccessed b c = true →
      byLastAccessed a c = true := by
  intro a b c hab hbc
  simp only [byLastAccessed, decide_eq_true_eq] at hab hbc ⊢
  exact le_trans hab hbc

theorem byLastAccessed_total :
    ∀ (a b : String × CacheEntry), (byLastAccessed a b || byLastAccessed b a) = true := by
  intro a b
  simp only [byLastAccessed, Bool.or_eq_true, decide_eq_true_eq]
  exact le_total _ _

theorem evictIfNeeded_over (m : CacheMap) (hnd : keysNodup m)
    (hover : MAX_CACHE_SIZE < m.length) :
    (StatsCache.evictIfNeeded m).length = MAX_CACHE_SIZE ∧
    (∀ p ∈ StatsCache.evictIfNeeded m, p ∈ m) ∧
    (∀ p ∈ StatsCache.evictIfNeeded m, ∀ q ∈ m, q ∉ StatsCache.evictIfNeeded m →
      q.2.lastAccessed ≤ p.2.lastAccessed) := by
  have hle : ¬(m.length ≤ MAX_CACHE_SIZE) := not_le.mpr hover
  have hunfold : StatsCache.evictIfNeeded m =
      (((m.mergeSort byLastAccessed).take (m.length - MAX_CACHE_SIZE)).map Prod.fst).foldl
        mapDelete m := by
    rw [StatsCache.evictIfNeeded, if_neg hle]
  rw [hunfold]
  set s := m.mergeSort byLastAccessed with hs
  set r := m.length - MAX_CACHE_SIZE with hr
  set victims := (s.take r).map Prod.fst with hv
  have hperm : s.Perm m := List.mergeSort_perm m byLastAccessed
  have hkeysperm : (s.map Prod.fst).Perm (m.map Prod.fst) := hperm.map Prod.fst
  have hnd_s : keysNodup s := (List.Perm.nodup_iff hkeysperm).mpr hnd
  have hslen : s.length = m.length := hperm.length_eq
  have hrle : r ≤ s.length := by omega
  have hvkeys : victims = (s.map Prod.fst).take r := by
    rw [hv, List.map_take]
  have hvnd : victims.Nodup := by
    rw [hvkeys]
    exact hnd_s.sublist (List.take_sublist _ _)
  have hvsub : ∀ k ∈ victims, k ∈ m.map Prod.fst := by
    intro k hk
    rw [hvkeys] at hk
    exact hkeysperm.mem_iff.mp (List.take_subset _ _ hk)
  have hvlen : victims.length = r := by
    rw [hvkeys, List.length_take, List.length_map]
    exact Nat.min_eq_left hrle
  have hlen : (victims.foldl mapDelete m).length + victims.length = m.length :=
    length_foldl_mapDelete victims m hnd hvnd hvsub
  have hmem : ∀ p : String × CacheEntry,
      p ∈ victims.foldl mapDelete m ↔ p ∈ m ∧ p.1 ∉ victims :=
    mem_foldl_mapDelete victims m hnd
  have hsorted : List.Pairwise (fun a b => byLastAccessed a b = true) s :=
    List.sorted_mergeSort byLastAccessed_trans byLastAccessed_total m
  refine ⟨by omega, fun p hp => (hmem p).mp hp |>.1, ?_⟩
  intro p hp q hq hqnot
  have hpm := (hmem p).mp hp
  -- q is a victim entry
  have hqv : q.1 ∈ victims := by
    by_cases hkv : q.1 ∈ victims
    · exact hkv
    · exact absurd ((hmem q).mpr ⟨hq, hkv⟩) hqnot
  -- q appears in the taken prefix of the sorted list
  have hqs : q ∈ s.take r := by
    rw [hv] at hqv
    obtain ⟨q', hq', hq'k⟩ := List.mem_map.mp hqv
    have hq's : q' ∈ s := List.take_subset _ _ hq'
    have hqs : q ∈ s := hperm.mem_iff.mpr hq
    have := keysNodup_inj s hnd_s q' hq's q hqs hq'k
    exact this ▸ hq'
  -- p appears in the dropped suffix of the sorted list
  have hps : p ∈ s.drop r := by
    have hpsmem : p ∈ s := hperm.mem_iff.mpr hpm.1
    rcases List.mem_append.mp ((List.take_append_drop r s) ▸ hpsmem) with hh | hh
    · exfalso
      exact hpm.2 (hv ▸ List.mem_map_of_mem Prod.fst hh)
    · exact hh
  -- sorted pairwise across the split
  have hpair := hsorted
  rw [← List.take_append_drop r s] at hpair
  have := (List.pairwise_append.mp hpair).2.2 q hqs p hps
  simpa [byLastAccessed] using this

theorem mapSet_length_le (m : CacheMap) (k : String) (v : CacheEntry) :
    (mapSet m k v).length ≤ m.length + 1 := by
  induction m with
  | nil => simp [mapSet]
  | cons q rest ih =>
    by_cases hq : q.1 = k
    · rw [mapSet, if_pos hq]
      simp
    · rw [mapSet, if_neg hq]
      simp only [List.length_cons]
      omega



theorem evictIfNeeded_under (m : CacheMap) (h : m.length ≤ MAX_CACHE_SIZE) :
    StatsCache.evictIfNeeded m = m := by
  rw [StatsCache.evictIfNeeded, if_pos h]

theorem mapSet_of_not_mem (k : String) (v : CacheEntry) :
    ∀ (m : CacheMap), k ∉ m.map Prod.fst → mapSet m k v = m ++ [(k, v)] := by
  intro m
  induction m with
  | nil => intro _; rw [mapSet]; rfl
  | cons q rest ih =>
    intro h
    rw [List.map_cons] at h
    have hq : ¬(q.1 = k) := fun hh => h (List.mem_cons.mpr (Or.inl hh.symm))
    rw [mapSet, if_neg hq, ih (fun hh => h (List.mem_cons.mpr (Or.inr hh)))]
    rfl

theorem cacheSet_length_le (now : Int) (id : String) (d : PinData) (m : CacheMap)
    (hnd : keysNodup m) :
    (StatsCache.set now id d m).length ≤ MAX_CACHE_SIZE := by
  rw [StatsCache.set]
  have hnd1 : keysNodup (mapSet m id { data := d, timestamp := now, lastAccessed := now }) :=
    keysNodup_mapSet m id _ hnd
  by_cases h : (mapSet m id { data := d, timestamp := now, lastAccessed := now }).length ≤
      MAX_CACHE_SIZE
  · rw [evictIfNeeded_under _ h]
    exact h
  · rw [(evictIfNeeded_over _ hnd1 (not_le.mp h)).1]



theorem insertSeq_go :
    ∀ (ids : List String) (t : Int) (m : CacheMap),
      ids.Nodup → (∀ id ∈ ids, id ∉ m.map Prod.fst) → keysNodup m →
      m.length ≤ MAX_CACHE_SIZE →
      List.Pairwise (fun a b => byLastAccessed a b = true) m →
      (∀ p ∈ m, p.2.lastAccessed < t) →
      (insertSeq ids t m).map Prod.fst =
        (m.map Prod.fst ++ ids).drop (m.length + ids.length - MAX_CACHE_SIZE) := by
  intro ids
  induction ids with
  | nil =>
    intro t m _ _ _ hlen _ _
    rw [insertSeq]
    simp only [List.append_nil, List.length_nil, Nat.add_zero]
    rw [Nat.sub_eq_zero_of_le hlen, List.drop_zero]
  | cons id rest ih =>
    intro t m hnd hfresh hknd hlen hsort hlt
    rw [insertSeq, StatsCache.set]
    set e : CacheEntry :=
      { data := defaultPinData clock0 id, timestamp := t, lastAccessed := t } with he
    have hidfresh : id ∉ m.map Prod.fst := hfresh id (List.mem_cons_self _ _)
    have hset : mapSet m id e = m ++ [(id, e)] := mapSet_of_not_mem id e m hidfresh
    rw [hset]
    -- the appended state
    have hm1knd : keysNodup (m ++ [(id, e)]) := by
      rw [keysNodup, List.map_append]
      rw [List.nodup_append]
      refine ⟨hknd, by simp, ?_⟩
      intro x hx
      simp only [List.map_cons, List.map_nil, List.mem_singleton]
      intro hxe
      exact hidfresh (hxe ▸ hx)
    have hm1sort : List.Pairwise (fun a b => byLastAccessed a b = true) (m ++ [(id, e)]) := by
      rw [List.pairwise_append]
      refine ⟨hsort, by simp, ?_⟩
      intro a ha b hb
      simp only [List.mem_singleton] at hb
      subst hb
      simp only [byLastAccessed, he, decide_eq_true_eq]
      exact le_of_lt (hlt a ha)
    have hrest_nd : rest.Nodup := (List.nodup_cons.mp hnd).2
    have hid_rest : id ∉ rest := (List.nodup_cons.mp hnd).1
    by_cases hcase : m.length + 1 ≤ MAX_CACHE_SIZE
    · -- no eviction
      rw [evictIfNeeded_under (m ++ [(id, e)])
        (by simp only [List.length_append, List.length_cons, List.length_nil]; omega)]
      have hfresh' : ∀ x ∈ rest, x ∉ (m ++ [(id, e)]).map Prod.fst := by
        intro x hx
        rw [List.map_append]
        intro hmem
        rcases List.mem_append.mp hmem with hh | hh
        · exact hfresh x (List.mem_cons_of_mem _ hx) hh
        · simp only [List.map_cons, List.map_nil, List.mem_singleton] at hh
          exact hid_rest (hh ▸ hx)
      have hlt' : ∀ p ∈ m ++ [(id, e)], p.2.lastAccessed < t + 1 := by
        intro p hp
        rcases List.mem_append.mp hp with hh | hh
        · exact lt_trans (hlt p hh) (by omega)
        · simp only [List.mem_singleton] at hh
          subst hh
          simp [he]
      have := ih (t + 1) (m ++ [(id, e)]) hrest_nd hfresh' hm1knd
        (by simp only [List.length_append, List.length_cons, List.length_nil]; omega)
        hm1sort hlt'
      rw [this]
      have hlist : (m ++ [(id, e)]).map Prod.fst ++ rest = m.map Prod.fst ++ id :: rest := by
        simp [List.map_append]
      have hidx : (m ++ [(id, e)]).length + rest.length - MAX_CACHE_SIZE =
          m.length + (id :: rest).length - MAX_CACHE_SIZE := by
        simp only [List.length_append, List.length_cons, List.length_nil]
        omega
      rw [hlist, hidx]
    · -- eviction of the head entry
      have hmlen : m.length = MAX_CACHE_SIZE := by omega
      have hm1len : (m ++ [(id, e)]).length = MAX_CACHE_SIZE + 1 := by
        simp [hmlen]
      have hover : MAX_CACHE_SIZE < (m ++ [(id, e)]).length := by omega
      have hm_ne : m ≠ [] := by
        intro hh
        rw [hh] at hmlen
        simp [MAX_CACHE_SIZE] at hmlen
      obtain ⟨p0, mtl, hm0⟩ := List.exists_cons_of_ne_nil hm_ne
      subst hm0
      -- sorted, so the merge sort is the identity and the head is evicted
      have hunfold : StatsCache.evictIfNeeded ((p0 :: mtl) ++ [(id, e)]) =
          ((((p0 :: mtl) ++ [(id, e)]).take 1).map Prod.fst).foldl mapDelete
            ((p0 :: mtl) ++ [(id, e)]) := by
        rw [StatsCache.evictIfNeeded, if_neg (not_le.mpr hover)]
        rw [List.mergeSort_of_sorted hm1sort]
        rw [hm1len]
        have : MAX_CACHE_SIZE + 1 - MAX_CACHE_SIZE = 1 := by omega
        rw [this]
      rw [hunfold]
      have hdel : ((((p0 :: mtl) ++ [(id, e)]).take 1).map Prod.fst).foldl mapDelete
          ((p0 :: mtl) ++ [(id, e)]) = mtl ++ [(id, e)] := by
        simp only [List.cons_append, List.take_cons, List.take_zero, List.map_cons,
          List.map_nil, List.foldl_cons, List.foldl_nil]
        simp [mapDelete]
      rw [hdel]
      -- conditions for the tail state
      have hknd_tl : keysNodup mtl := by
        have : ((p0 :: mtl).map Prod.fst).Nodup := by simpa [keysNodup] using hknd
        exact (List.nodup_cons.mp (by simpa using this)).2
      have hidtl : id ∉ mtl.map Prod.fst := by
        intro hh
        exact hidfresh (by simp [hh])
      have hm2knd : keysNodup (mtl ++ [(id, e)]) := by
        rw [keysNodup, List.map_append, List.nodup_append]
        refine ⟨hknd_tl, by simp, ?_⟩
        intro x hx
        simp only [List.map_cons, List.map_nil, List.mem_singleton]
        intro hxe
        exact hidtl (hxe ▸ hx)
      have hm2sort : List.Pairwise (fun a b => byLastAccessed a b = true) (mtl ++ [(id, e)]) := by
        have := hm1sort
        rw [List.cons_append] at this
        exact (List.pairwise_cons.mp this).2
      have hfresh2 : ∀ x ∈ rest, x ∉ (mtl ++ [(id, e)]).map Prod.fst := by
        intro x hx
        rw [List.map_append]
        intro hmem
        rcases List.mem_append.mp hmem with hh | hh
        · exact hfresh x (List.mem_cons_of_mem _ hx) (by simp [hh])
        · simp only [List.map_cons, List.map_nil, List.mem_singleton] at hh
          exact hid_rest (hh ▸ hx)
      have hlt2 : ∀ p ∈ mtl ++ [(id, e)], p.2.lastAccessed < t + 1 := by
        intro p hp
        rcases List.mem_append.mp hp with hh | hh
        · exact lt_trans (hlt p (List.mem_cons_of_mem _ hh)) (by omega)
        · simp only [List.mem_singleton] at hh
          subst hh
          simp [he]
      have hm2len : (mtl ++ [(id, e)]).length ≤ MAX_CACHE_SIZE := by
        simp only [List.length_cons] at hmlen
        simp only [List.length_append, List.length_cons, List.length_nil]
        omega
      have := ih (t + 1) (mtl ++ [(id, e)]) hrest_nd hfresh2 hm2knd hm2len hm2sort hlt2
      rw [this]
      -- arithmetic bookkeeping of the drop index
      have hm2len_eq : (mtl ++ [(id, e)]).length = MAX_CACHE_SIZE := by
        simp only [List.length_cons] at hmlen
        simp only [List.length_append, List.length_cons, List.length_nil]
        omega
      rw [hm2len_eq]
      have hdrop2 : MAX_CACHE_SIZE + rest.length - MAX_CACHE_SIZE = rest.length := by omega
      rw [hdrop2]
      have hdrop1 : (p0 :: mtl).length + (id :: rest).length - MAX_CACHE_SIZE =
          rest.length + 1 := by
        simp only [List.length_cons, hmlen]
        simp only [List.length_cons] at hmlen ⊢
        omega
      rw [hdrop1]
      simp only [List.map_append, List.map_cons, List.map_nil, List.append_assoc,
        List.singleton_append, List.cons_append]
      rw [List.drop_succ_cons]
      simp






theorem aOf_injective : Function.Injective aOf := by
  intro a b h
  have : (aOf a).length = (aOf b).length := by rw [h]
  simpa [aOf] using this

theorem bigIds_nodup (n : Nat) : (bigIds n).Nodup :=
  (List.nodup_range n).map aOf_injective

theorem bigIds_length (n : Nat) : (bigIds n).length = n := by
  simp [bigIds]

theorem keysNodup_of_pairs (l : List String) (h : l.Nodup) (e : CacheEntry) :
    keysNodup (l.map (fun id => (id, e))) := by
  rw [keysNodup, List.map_map]
  have hcomp : (Prod.fst ∘ fun id : String => (id, e)) = fun id : String => id := rfl
  rw [hcomp]
  simpa using h

theorem bigCache_keysNodup : keysNodup bigCache := by
  rw [bigCache]
  exact keysNodup_of_pairs _ (bigIds_nodup _) _

theorem bigCache_length : bigCache.length = MAX_CACHE_SIZE + 1 := by
  rw [bigCache, List.length_map, bigIds_length]

/-- C3: after every `set` on a well-formed cache the size is at most
`MAX_CACHE_SIZE` (5000); a set that stays within the limit evicts
nothing; when the size exceeds the limit, eviction returns exactly
`MAX_CACHE_SIZE` entries, all drawn from the original map, and every
evicted entry has `lastAccessed` no later than every survivor (true LRU,
not insertion order); and inserting `maxSize + k` distinct ids at
strictly increasing times into an empty cache leaves exactly the last
`maxSize` inserted ids — the `maxSize` most recently accessed. -/
theorem c3_cache_bounded_lru_eviction :
    (∀ (now : Int) (id : String) (d : PinData) (m : CacheMap), keysNodup m →
      (StatsCache.set now id d m).length ≤ MAX_CACHE_SIZE) ∧
    (∀ m : CacheMap, m.length ≤ MAX_CACHE_SIZE → StatsCache.evictIfNeeded m = m) ∧
    (∀ m : CacheMap, keysNodup m → MAX_CACHE_SIZE < m.length →
      (StatsCache.evictIfNeeded m).length = MAX_CACHE_SIZE ∧
      (∀ p ∈ StatsCache.evictIfNeeded m, p ∈ m) ∧
      (∀ p ∈ StatsCache.evictIfNeeded m, ∀ q ∈ m, q ∉ StatsCache.evictIfNeeded m →
        q.2.lastAccessed ≤ p.2.lastAccessed)) ∧
    (∀ (ids : List String) (k : Nat), ids.Nodup → ids.length = MAX_CACHE_SIZE + k →
      (insertSeq ids 0 []).map Prod.fst = ids.drop k) := by
  refine ⟨cacheSet_length_le, evictIfNeeded_under, evictIfNeeded_over, ?_⟩
  intro ids k hnd hlen
  have := insertSeq_go ids 0 [] hnd (by simp) (by simp [keysNodup])
    (by simp) (by simp) (by simp)
  rw [this]
  simp only [List.map_nil, List.nil_append, List.length_nil, Nat.zero_add]
  rw [hlen]
  have : MAX_CACHE_SIZE + k - MAX_CACHE_SIZE = k := by omega
  rw [this]

/-- Witness for C3: a small set, a no-op eviction, the 5001-entry
over-limit cache, and the 5001-id insertion scenario. -/
theorem c3_cache_bounded_lru_eviction_witness :
    (StatsCache.set 0 "1" (defaultPinData clock0 "1") [("2", entryAt 0)]).length ≤
      MAX_CACHE_SIZE ∧
    StatsCache.evictIfNeeded [("1", entryAt 0)] = [("1", entryAt 0)] ∧
    ((StatsCache.evictIfNeeded bigCache).length = MAX_CACHE_SIZE ∧
      (∀ p ∈ StatsCache.evictIfNeeded bigCache, p ∈ bigCache) ∧
      (∀ p ∈ StatsCache.evictIfNeeded bigCache, ∀ q ∈ bigCache,
        q ∉ StatsCache.evictIfNeeded bigCache →
        q.2.lastAccessed ≤ p.2.lastAccessed)) ∧
    (insertSeq (bigIds (MAX_CACHE_SIZE + 1)) 0 []).map Prod.fst =
      (bigIds (MAX_CACHE_SIZE + 1)).drop 1 :=
  ⟨c3_cache_bounded_lru_eviction.1 0 "1" (defaultPinData clock0 "1") [("2", entryAt 0)]
      (by unfold keysNodup; decide),
   c3_cache_bounded_lru_eviction.2.1 [("1", entryAt 0)] (by decide),
   c3_cache_bounded_lru_eviction.2.2.1 bigCache bigCache_keysNodup
      (by rw [bigCache_length]; omega),
   c3_cache_bounded_lru_eviction.2.2.2 (bigIds (MAX_CACHE_SIZE + 1)) 1
      (bigIds_nodup _) (bigIds_length _)⟩


end PinStats
